import Mathlib

/-!
# go-flow-ea: a generational genetic algorithm for OneMax

A shallow embedding of `main.go` and a verification of its specification.

Modelling conventions.

* Go `int` values are mathematical integers (`Int`).  Counts and indices in the
  program are bounded by slice lengths, and the counter `gen` by
  `maxGenerations + 1`, which is taken to fit in 64 bits; no wrap-around is
  modelled.
* A slice is a `List`.  Every slice the program builds has `cap == len`
  (`make([]int, n)`, or `make([]int, 0, n)` filled with exactly `n` elements),
  so the bound of a slice expression is the list length.
* A run of the program ends in one of three ways, recorded by `Outcome`:
  it returns normally, it panics, or it calls `os.Exit(0)` after printing the
  winner.  A fourth outcome, `hang`, marks a loop that was cut off by the fuel
  of the model.
* `float64` is kept abstract (`Float64Model`): the operations the program uses
  and the documented range of `rand.Float64`.  The same structure carries the
  one constant of the allocator that the program meets, the largest length
  that `make([]int, n)` grants.
* The global `math/rand` source is an infinite sequence of raw draws (`Rand`).
* `sort.Sort` is library code; it enters through its documented contract
  (`Sorter`): the result is a permutation of the input in ascending order of
  `Less`, with no promise about the order of equal elements.  Where the order
  of equal elements matters, the algorithm of the library itself is followed
  (`goSort`, `goSorter`).
-/

namespace GoFlowEA

/-! ## Data model -/

/-- The struct `individual` of main.go. -/
structure individual where
  entities : List Int
  amount : Int
  fitness : Int
  generation : Int
deriving DecidableEq, Repr

/-- How a call ends: normal return, runtime panic, `os.Exit(0)` after printing
the winner, or a loop cut off by the fuel of the model. -/
inductive Outcome (α : Type) where
  | ok (a : α)
  | panic
  | exit (winner : individual)
  | hang
deriving DecidableEq, Repr

/-- Sequencing of calls: the first abnormal outcome ends the run. -/
def Outcome.bind {α β : Type} (o : Outcome α) (f : α → Outcome β) : Outcome β :=
  match o with
  | .ok a => f a
  | .panic => .panic
  | .exit w => .exit w
  | .hang => .hang

instance : Monad Outcome where
  pure := Outcome.ok
  bind := Outcome.bind

/-- The global `math/rand` source: an infinite sequence of raw draws and a
cursor into it. -/
structure Rand where
  draws : Nat → Nat
  pos : Nat

/-- The raw value of the next draw. -/
def Rand.peek (r : Rand) : Nat := r.draws r.pos

/-- The source after one draw. -/
def Rand.advance (r : Rand) : Rand := { r with pos := r.pos + 1 }

/-- Go `rand.Intn(n)`: panics when `n <= 0`, otherwise returns a value of `[0, n)`;
every value of the range is returned for some raw draw. -/
def Intn (n : Int) (r : Rand) : Outcome (Int × Rand) :=
  if n ≤ 0 then .panic else .ok ((r.peek : Int) % n, r.advance)

/-- Go `fitness`: the number of entries that are `> 0`, counted by the loop of the
source. -/
def fitness (vals : List Int) : Int :=
  vals.foldl (fun cnt v => if v > 0 then cnt + 1 else cnt) 0

/-- The slice expression `s[:k]`: panics unless `0 <= k <= cap(s)`. -/
def sliceTo (s : List Int) (k : Int) : Outcome (List Int) :=
  if 0 ≤ k ∧ k ≤ s.length then .ok (s.take k.toNat) else .panic

/-- The slice expression `s[k:]`: panics unless `0 <= k <= len(s)`. -/
def sliceFrom (s : List Int) (k : Int) : Outcome (List Int) :=
  if 0 ≤ k ∧ k ≤ s.length then .ok (s.drop k.toNat) else .panic

/-- The body of `RandomOnePointCrossover` after the draw of `randOnePoint`. -/
def crossoverAt (randOnePoint : Int) (x y : individual) :
    Outcome (individual × individual) := do
  let x0 ← sliceTo x.entities randOnePoint
  let y0 ← sliceTo y.entities randOnePoint
  let y1 ← sliceFrom y.entities randOnePoint
  let x1 ← sliceFrom x.entities randOnePoint
  let tempGene1 := x0 ++ y1
  let tempGene2 := y0 ++ x1
  let retGene1 : individual := ⟨tempGene1, tempGene1.length, fitness tempGene1, 0⟩
  let retGene2 : individual := ⟨tempGene2, tempGene2.length, fitness tempGene2, 0⟩
  pure (retGene1, retGene2)

/-- Go `population.RandomOnePointCrossover`: draws `randOnePoint` from
`rand.Intn(len(x.entities))` and recombines the two parents there. -/
def RandomOnePointCrossover (x y : individual) (r : Rand) :
    Outcome ((individual × individual) × Rand) := do
  let (randOnePoint, r1) ← Intn x.entities.length r
  let chd ← crossoverAt randOnePoint x y
  pure (chd, r1)

/-! ## Floating point, configuration, population -/

/-- The part of the Go platform that main.go relies on and does not define.
For float64: conversion from int, addition, division, the comparisons, the value
`rand.Float64` makes of a raw draw, and the documented range `[0.0, 1.0)` of
`rand.Float64`; rounding, infinities and NaN are left to the instance.  For the
allocator: `maxSliceLen`, the largest length for which `make([]int, n)`
returns.  It is at most 2^45, above which 64-bit Go panics with "makeslice: len
out of range" (8-byte elements, `maxAlloc = 2^48`); it is less where memory
runs out first, which ends the program in `make` all the same. -/
structure Float64Model where
  F : Type
  ofInt : Int → F
  add : F → F → F
  div : F → F → F
  lt : F → F → Bool
  le : F → F → Bool
  unit : Nat → F
  maxSliceLen : Int
  lt_false_of_le : ∀ a b, le b a = true → lt a b = false
  unit_not_lt_zero : ∀ n, lt (unit n) (ofInt 0) = false
  unit_lt_one : ∀ n, lt (unit n) (ofInt 1) = true
  maxSliceLen_le : maxSliceLen ≤ 35184372088832

/-- An instance of the platform interface with exact arithmetic on fractions:
a value is a pair (numerator, denominator), and a raw draw n becomes
(n mod 2^53) / 2^53.  The largest slice length is 2^45, the bound of
`makeslice` itself. -/
@[reducible] def exactFloat : Float64Model where
  F := Int × Int
  ofInt := fun i => (i, 1)
  add := fun a b => (a.1 * b.2 + b.1 * a.2, a.2 * b.2)
  div := fun a b => (a.1 * b.2, a.2 * b.1)
  lt := fun a b => decide (a.1 * b.2 < b.1 * a.2)
  le := fun a b => decide (a.1 * b.2 ≤ b.1 * a.2)
  unit := fun n => (((n % 9007199254740992 : Nat) : Int), 9007199254740992)
  maxSliceLen := 35184372088832
  lt_false_of_le := by
    intro a b h
    simp only [decide_eq_true_eq] at h
    simp only [decide_eq_false_iff_not, not_lt]
    exact h
  unit_not_lt_zero := by
    intro n
    simp only [decide_eq_false_iff_not, not_lt]
    omega
  unit_lt_one := by
    intro n
    simp only [decide_eq_true_eq]
    omega
  maxSliceLen_le := by decide

/-- The flags of main.go that the evolution loop reads.  `crossoverRate` is
never read, `debug` only selects printing, and the `es*` flags belong to the
persistence sink. -/
structure Config (M : Float64Model) where
  mutationRate : M.F
  amountOfIndividuals : Int
  amountOfEntities : Int
  maxGenerations : Int
  childrenPerGeneration : Int
  desiredFitness : M.F
  stopAtFirstPerfect : Bool

/-- The struct `population` of main.go. -/
structure population (M : Float64Model) where
  individuals : List individual
  maxIndividuals : Int
  maxFitness : Int
  avgFitness : M.F

/-- The zero value `population{}`. -/
def population.zero (M : Float64Model) : population M :=
  ⟨[], 0, 0, M.ofInt 0⟩

/-- The contract of `sort.Sort(byFitness(v))`: the slice is permuted so that no
later element is `Less` than an earlier one, where
`Less(i, j) = v[i].fitness < v[j].fitness`.  The order of elements with equal
fitness is not specified. -/
structure Sorter where
  sort : List individual → List individual
  perm : ∀ l, (sort l).Perm l
  sorted : ∀ l, (sort l).Pairwise (fun a b => ¬ b.fitness < a.fitness)

/-- Insertion sort by cached fitness, one sorter that meets the contract. -/
def insertionSorter : Sorter where
  sort := fun l => l.insertionSort (fun a b => a.fitness ≤ b.fitness)
  perm := fun l => List.perm_insertionSort _ l
  sorted := by
    intro l
    have hs : (l.insertionSort (fun a b : individual => a.fitness ≤ b.fitness)).Sorted
        (fun a b => a.fitness ≤ b.fitness) :=
      @List.sorted_insertionSort individual (fun a b => a.fitness ≤ b.fitness) _
        ⟨fun a b => le_total a.fitness b.fitness⟩
        ⟨fun a b c hab hbc => le_trans hab hbc⟩ l
    exact hs.imp (fun h => not_lt.mpr h)

/-! ## Operations on individuals -/

/-- Go indexing `s[i]`: panics unless `0 <= i < len(s)`. -/
def index {α : Type} (s : List α) (i : Int) : Outcome α :=
  if 0 ≤ i then
    match s[i.toNat]? with
    | some a => .ok a
    | none => .panic
  else .panic

/-- Go `individual.SetEntity`: the assignment `i.entities[position] = value`. -/
def individual.SetEntity (i : individual) (position value : Int) : Outcome individual :=
  if 0 ≤ position ∧ position < i.entities.length then
    .ok { i with entities := i.entities.set position.toNat value }
  else .panic

/-- Go `individual.FlipTheBit`: writes 1 over a 0 and 0 over anything else. -/
def individual.FlipTheBit (i : individual) (pos : Int) : Outcome individual := do
  let oldval ← index i.entities pos
  let newval : Int := if oldval = 0 then 1 else 0
  i.SetEntity pos newval

/-- Go `individual.RefreshFitness`. -/
def individual.RefreshFitness (i : individual) : individual :=
  { i with fitness := GoFlowEA.fitness i.entities }

/-- The for-loop of `Mutate` with `n` positions left, the next one being `j`:
one `rand.Float64()` per position, and a flip when it is below the rate. -/
def mutateLoop (M : Float64Model) (mutationRate : M.F) :
    Nat → Int → individual → Rand → Outcome (individual × Rand)
  | 0, _, i, r => .ok (i, r)
  | n + 1, j, i, r =>
    if M.lt (M.unit r.peek) mutationRate then do
      let i1 ← i.FlipTheBit j
      mutateLoop M mutationRate n (j + 1) i1 r.advance
    else
      mutateLoop M mutationRate n (j + 1) i r.advance

/-- Go `individual.Mutate`: the loop over all positions, then `RefreshFitness`. -/
def individual.Mutate {M : Float64Model} (cfg : Config M) (i : individual) (r : Rand) :
    Outcome (individual × Rand) := do
  let (i1, r1) ← mutateLoop M cfg.mutationRate i.entities.length 0 i r
  pure (i1.RefreshFitness, r1)

/-- The loop of `createRandomValues`: entry after entry receives `rand.Intn(2)`. -/
def fillRandom : Nat → Rand → Outcome (List Int × Rand)
  | 0, r => .ok ([], r)
  | n + 1, r => do
    let (v, r1) ← Intn 2 r
    let (vs, r2) ← fillRandom n r1
    pure (v :: vs, r2)

/-- Go `createRandomValues`: `make([]int, length)` ends the program on a negative
length and on a length above the largest one the allocator grants. -/
def createRandomValues (M : Float64Model) (length : Int) (r : Rand) :
    Outcome (List Int × Rand) :=
  if length < 0 ∨ M.maxSliceLen < length then .panic else fillRandom length.toNat r

/-! ## Operations on populations -/

/-- Go `population.AppendIndividual`. -/
def population.AppendIndividual {M : Float64Model} (p : population M) (i : individual) :
    population M :=
  { p with individuals := p.individuals ++ [i] }

/-- Go `population.AppendIndividuals`. -/
def population.AppendIndividuals {M : Float64Model} (p : population M) (i j : individual) :
    population M :=
  { p with individuals := (p.individuals ++ [i]) ++ [j] }

/-- Go `population.TwoIndividual`. -/
def population.TwoIndividual {M : Float64Model} (p : population M) (x y : Int) :
    Outcome (individual × individual) := do
  let a ← index p.individuals x
  let b ← index p.individuals y
  pure (a, b)

/-- The loop of `RefreshAvgFitness` over the individuals still to visit, with
the running sum `acc`: on the first individual whose recomputed fitness equals
`maxFitness` while `stopAtFirstPerfect` is set, the program prints it and
exits. -/
def avgLoop (M : Float64Model) (stopAtFirstPerfect : Bool) (maxFitness : Int) :
    List individual → M.F → Outcome M.F
  | [], acc => .ok acc
  | i :: rest, acc =>
    if stopAtFirstPerfect && decide (fitness i.entities = maxFitness) then .exit i
    else avgLoop M stopAtFirstPerfect maxFitness rest (M.add acc (M.ofInt (fitness i.entities)))

/-- Go `population.RefreshAvgFitness`. -/
def population.RefreshAvgFitness {M : Float64Model} (cfg : Config M) (p : population M) :
    Outcome (population M) := do
  let avgFitness ← avgLoop M cfg.stopAtFirstPerfect p.maxFitness p.individuals (M.ofInt 0)
  pure { p with avgFitness := M.div avgFitness (M.ofInt p.individuals.length) }

/-- Go `population.RefreshFitness`. -/
def population.RefreshFitness {M : Float64Model} (p : population M) : population M :=
  { p with individuals := p.individuals.map (fun i => { i with fitness := fitness i.entities }) }

/-- Go `population.RefreshGeneration`. -/
def population.RefreshGeneration {M : Float64Model} (p : population M) (gen : Int) :
    population M :=
  { p with individuals := p.individuals.map (fun i => { i with generation := gen }) }

/-- Go `population.KillWeak`: sorts by cached fitness, keeps the slice from
`len(p.individuals) - amountOfIndividuals` on (a panic when that bound is
outside `[0, len]`), and refreshes the average. -/
def population.KillWeak {M : Float64Model} (S : Sorter) (cfg : Config M) (p : population M) :
    Outcome (population M) :=
  let sorted := S.sort p.individuals
  let low : Int := (sorted.length : Int) - cfg.amountOfIndividuals
  if 0 ≤ low ∧ low ≤ sorted.length then
    population.RefreshAvgFitness cfg { p with individuals := sorted.drop low.toNat }
  else .panic

/-- The for-loop of `Initialize` with `n` individuals still to create. -/
def initLoop {M : Float64Model} (length : Int) :
    Nat → population M → Rand → Outcome (population M × Rand)
  | 0, p, r => .ok (p, r)
  | n + 1, p, r => do
    let (randomVals, r1) ← createRandomValues M length r
    let appendMe : individual := ⟨randomVals, length, fitness randomVals, 0⟩
    initLoop length n (p.AppendIndividual appendMe) r1

/-- Go `population.Initialize`. -/
def population.Initialize {M : Float64Model} (p : population M) (amount length : Int)
    (r : Rand) : Outcome (population M × Rand) :=
  initLoop length amount.toNat { p with maxIndividuals := amount, maxFitness := length } r

/-- The resampling loop of `ParentSelection`, cut off after `fuel` redraws. -/
def resampleMother (length father : Int) : Nat → Int → Rand → Outcome (Int × Rand)
  | 0, mother, r => if mother = father then .hang else .ok (mother, r)
  | fuel + 1, mother, r =>
    if mother = father then do
      let (mother1, r1) ← Intn length r
      resampleMother length father fuel mother1 r1
    else .ok (mother, r)

/-- Go `population.ParentSelection`. -/
def population.ParentSelection {M : Float64Model} (p : population M) (fuel : Nat) (r : Rand) :
    Outcome ((individual × individual) × Rand) := do
  let length : Int := p.individuals.length
  let (mother, r1) ← Intn length r
  let (father, r2) ← Intn length r1
  let (mother1, r3) ← resampleMother length father fuel mother r2
  let parents ← p.TwoIndividual mother1 father
  pure (parents, r3)

/-- The loop of `testEq` over the positions of two slices of equal length: the
first position at which they differ ends it with `false`. -/
def testEqLoop : List Int → List Int → Bool
  | a :: as, b :: bs => if a ≠ b then false else testEqLoop as bs
  | _, _ => true

/-- Go `testEq`: `false` on different lengths, otherwise the comparison entry
by entry. -/
def testEq (a b : List Int) : Bool :=
  if a.length ≠ b.length then false else testEqLoop a b

/-- The loop of `Pos` over the individuals from index `k` on: the index of the
first individual whose entities pass `testEq` against the target, and -1 when
the loop runs out. -/
def posLoop (target : List Int) : List individual → Int → Int
  | [], _ => -1
  | v :: rest, k => if testEq v.entities target then k else posLoop target rest (k + 1)

/-- Go `population.Pos`. -/
def population.Pos {M : Float64Model} (p : population M) (i : individual) : Int :=
  posLoop i.entities p.individuals 0

/-! ## The evolution loop of main -/

/-- The variables of the loop in `main`: the population, the cached average
`fitness`, the counter `gen`, and the random source. -/
structure LoopState (M : Float64Model) where
  popul : population M
  fitness : M.F
  gen : Int
  rng : Rand

/-- One pass of the inner for-loop of `main`: select two parents, cross them
over, mutate both children, append both. -/
def breedOnce {M : Float64Model} (cfg : Config M) (pfuel : Nat) (p : population M)
    (r : Rand) : Outcome (population M × Rand) := do
  let ((mother, father), r1) ← p.ParentSelection pfuel r
  let ((chd1, chd2), r2) ← RandomOnePointCrossover mother father r1
  let (chd1m, r3) ← chd1.Mutate cfg r2
  let (chd2m, r4) ← chd2.Mutate cfg r3
  pure (p.AppendIndividuals chd1m chd2m, r4)

/-- The inner for-loop of `main` with `n` passes left. -/
def breedLoop {M : Float64Model} (cfg : Config M) (pfuel : Nat) :
    Nat → population M → Rand → Outcome (population M × Rand)
  | 0, p, r => .ok (p, r)
  | n + 1, p, r => do
    let (p1, r1) ← breedOnce cfg pfuel p r
    breedLoop cfg pfuel n p1 r1

/-- One breeding cycle, the body of the outer loop of `main` below its two
tests: breed `childrenPerGeneration` pairs, `KillWeak`, `RefreshAvgFitness`,
`RefreshFitness`, `RefreshGeneration(gen)`, `gen += 1`, and reload `fitness`.
The call of `DbWrite` at the end only sends the individuals to the network. -/
def cycle {M : Float64Model} (S : Sorter) (cfg : Config M) (pfuel : Nat)
    (s : LoopState M) : Outcome (LoopState M) := do
  let (p1, r1) ← breedLoop cfg pfuel cfg.childrenPerGeneration.toNat s.popul s.rng
  let p2 ← p1.KillWeak S cfg
  let p3 ← p2.RefreshAvgFitness cfg
  let p4 := p3.RefreshFitness
  let p5 := p4.RefreshGeneration s.gen
  pure ⟨p5, p5.avgFitness, s.gen + 1, r1⟩

/-- The part of `main` before the loop: `Initialize`, `RefreshFitness`,
`RefreshAvgFitness`, then `fitness := popul.AvgFitness()` and `gen := 0`. -/
def start {M : Float64Model} (cfg : Config M) (r : Rand) : Outcome (LoopState M) := do
  let (p1, r1) ← (population.zero M).Initialize cfg.amountOfIndividuals cfg.amountOfEntities r
  let p2 := p1.RefreshFitness
  let p3 ← p2.RefreshAvgFitness cfg
  pure ⟨p3, p3.avgFitness, 0, r1⟩

/-- The outer loop of `main`, cut off after `fuel` iterations.  The result is
the number of breeding cycles that were begun and the way the loop ended:
`ok s` when the test `fitness < desiredFitness` failed or the loop was left by
`break` on `gen > maxGenerations`. -/
def evolve {M : Float64Model} (S : Sorter) (cfg : Config M) (pfuel : Nat) :
    Nat → LoopState M → Nat × Outcome (LoopState M)
  | 0, _ => (0, .hang)
  | fuel + 1, s =>
    if M.lt s.fitness cfg.desiredFitness then
      if s.gen > cfg.maxGenerations then (0, .ok s)
      else
        match cycle S cfg pfuel s with
        | .ok s1 => ((evolve S cfg pfuel fuel s1).1 + 1, (evolve S cfg pfuel fuel s1).2)
        | .panic => (1, .panic)
        | .exit w => (1, .exit w)
        | .hang => (1, .hang)
    else (0, .ok s)

/-- The state after `k` breeding cycles in a row, if all of them complete. -/
def afterCycles {M : Float64Model} (S : Sorter) (cfg : Config M) (pfuel : Nat) :
    Nat → LoopState M → Outcome (LoopState M)
  | 0, s => .ok s
  | k + 1, s => do
    let s1 ← cycle S cfg pfuel s
    afterCycles S cfg pfuel k s1

/-- The function `main`: the start-up and then the loop. -/
def main {M : Float64Model} (S : Sorter) (cfg : Config M) (pfuel fuel : Nat) (r : Rand) :
    Nat × Outcome (LoopState M) :=
  match start cfg r with
  | .ok s0 => evolve S cfg pfuel fuel s0
  | .panic => (0, .panic)
  | .exit w => (0, .exit w)
  | .hang => (0, .hang)

/-! ## Specification-side definitions -/

/-- The `n` largest values of a list of fitness values, as the spec words the
result of truncation: sort the values in descending order and keep the first
`n`. -/
def largest (n : Nat) (vals : List Int) : List Int :=
  (vals.insertionSort (fun a b => b ≤ a)).take n

/-- The cached fitness values of a list of individuals. -/
def fitnessValues (l : List individual) : List Int :=
  l.map (fun i => i.fitness)

/-- The floating-point sum of a list of fitness values, accumulated from
`float64(0)` in list order, as the spec words the numerator of the average. -/
def floatSum (M : Float64Model) (vals : List Int) : M.F :=
  vals.foldl (fun a v => M.add a (M.ofInt v)) (M.ofInt 0)

/-- The average as `RefreshAvgFitness` computes it for a list of individuals:
the floating-point sum of fitness(entities) divided by `float64(len)`. -/
def averageOf (M : Float64Model) (l : List individual) : M.F :=
  M.div (floatSum M (l.map (fun i => fitness i.entities))) (M.ofInt l.length)

/-- What `Initialize` establishes for an individual it creates: `length` genes,
each 0 or 1, `amount = length`, the cached fitness of the genome, generation 0. -/
def FreshIndividual (length : Int) (i : individual) : Prop :=
  (i.entities.length : Int) = length ∧ (∀ v ∈ i.entities, v = 0 ∨ v = 1)
    ∧ i.amount = length ∧ i.fitness = fitness i.entities ∧ i.generation = 0

/-- Stability of a sorter, as the spec words the tie-breaking: for every fitness
value, the individuals of that fitness stand after the sort in the order in
which they stood before it. -/
def Sorter.Stable (S : Sorter) : Prop :=
  ∀ (l : List individual) (f : Int),
    (S.sort l).filter (fun i => decide (i.fitness = f))
      = l.filter (fun i => decide (i.fitness = f))

/-! ## Sample inputs -/

/-- A configuration with exact arithmetic: mutation rate 0, two individuals of
two genes, at most 10 generations, one pair of children per generation, desired
fitness 2, no stop at the first perfect individual. -/
def sampleConfig : Config exactFloat := ⟨(0, 1), 2, 2, 10, 1, (2, 1), false⟩

/-- A population of three individuals with fitness 1, 0 and 2. -/
def samplePopulation : population exactFloat :=
  ⟨[⟨[1, 0], 2, 1, 0⟩, ⟨[0, 0], 2, 0, 0⟩, ⟨[1, 1], 2, 2, 0⟩], 2, 2, (0, 1)⟩

/-- The sample population after `KillWeak` with two individuals retained. -/
def sampleTruncated : population exactFloat :=
  ⟨[⟨[1, 0], 2, 1, 0⟩, ⟨[1, 1], 2, 2, 0⟩], 2, 2, (3, 2)⟩

/-- A random source all of whose raw draws are 0. -/
def zeroRand : Rand := ⟨fun _ => 0, 0⟩

/-- The population that `Initialize(3, 1)` builds from `zeroRand`. -/
def sampleInitialized : population exactFloat :=
  ⟨[⟨[0], 1, 0, 0⟩, ⟨[0], 1, 0, 0⟩, ⟨[0], 1, 0, 0⟩], 3, 1, (0, 1)⟩

/-- The population `sampleInitialized` after `KillWeak` under `sampleConfig`. -/
def sampleInitializedTruncated : population exactFloat :=
  ⟨[⟨[0], 1, 0, 0⟩, ⟨[0], 1, 0, 0⟩], 3, 1, (0, 2)⟩

/-- A random source whose first raw draws are 1, 0, 0, 1, 0, 1, 1 and whose
later draws are all 0. -/
def sampleRand : Rand := ⟨fun n => [1, 0, 0, 1, 0, 1, 1].getD n 0, 0⟩

/-- The loop state that the start-up of `main` reaches under `sampleConfig`
from `sampleRand`: the individuals [1,0] and [0,1]. -/
def sampleStart : LoopState exactFloat :=
  ⟨⟨[⟨[1, 0], 2, 1, 0⟩, ⟨[0, 1], 2, 1, 0⟩], 2, 2, (2, 2)⟩, (2, 2), 0, ⟨sampleRand.draws, 4⟩⟩

/-- The loop state one breeding cycle after `sampleStart`: the parents [1,0] and
[0,1] are cut at 1 into [1,1] and [0,0], and [0,1] and [1,1] survive. -/
def sampleAfterOne : LoopState exactFloat :=
  ⟨⟨[⟨[0, 1], 2, 1, 0⟩, ⟨[1, 1], 2, 2, 0⟩], 2, 2, (3, 2)⟩, (3, 2), 1, ⟨sampleRand.draws, 11⟩⟩

/-- The sample configuration with mutation rate 1. -/
def sampleConfigRateOne : Config exactFloat := ⟨(1, 1), 2, 2, 10, 1, (2, 1), false⟩

/-- The scenario configuration: four individuals of four genes, mutation rate
0, one pair of children per generation, desired fitness 4, stop at the first
perfect individual. -/
def scenarioConfig : Config exactFloat := ⟨(0, 1), 4, 4, 10, 1, (4, 1), true⟩

/-- A random source that makes `Initialize(4, 4)` build the genomes [0,0,1,0],
[1,1,1,1], [0,1,0,0] and [0,0,0,0]. -/
def scenarioRand : Rand :=
  ⟨fun n => [0, 0, 1, 0, 1, 1, 1, 1, 0, 1, 0, 0].getD n 0, 0⟩

/-- The sample configuration with `maxGenerations = 0`. -/
def sampleConfigOneGeneration : Config exactFloat := ⟨(0, 1), 2, 2, 0, 1, (2, 1), false⟩

/-- A random source whose raw draws are 0, 0, 0, 1 and then all 0: on two
individuals `ParentSelection` draws mother 0, father 0, redraws 0 and then 1. -/
def resampleRand : Rand := ⟨fun n => [0, 0, 0, 1].getD n 0, 0⟩

/-- The sample configuration with one individual retained. -/
def sampleConfigKeepOne : Config exactFloat := ⟨(0, 1), 1, 2, 10, 1, (2, 1), false⟩

/-- A population of two individuals of equal fitness 1: [1,0] and then [0,1]. -/
def tiePopulation : population exactFloat :=
  ⟨[⟨[1, 0], 2, 1, 0⟩, ⟨[0, 1], 2, 1, 0⟩], 1, 2, (0, 1)⟩

/-! ## The library sort

`sort.Sort` of the Go standard library from Go 1.19 on (pattern-defeating
quicksort, `zsortinterface.go`), applied to `byFitness`.  The model follows the
library on every run that stays within: slices of 12 or fewer elements
(insertion sort), and longer slices of fewer than 50 elements as long as every
partition is balanced.  The parts it leaves out (`heapSort`, `breakPatterns`,
`reverseRange`, the ninther and the shifting of `partialInsertionSort`, all
reached only on other runs) make the model return `none`. -/

/-- Go `byFitness.Less`: `v[i].fitness < v[j].fitness`.  The library only passes
indices below `Len`. -/
def byFitness.Less (v : List individual) (i j : Nat) : Bool :=
  match v[i]?, v[j]? with
  | some x, some y => decide (x.fitness < y.fitness)
  | _, _ => false

/-- Go `byFitness.Swap`: `v[i], v[j] = v[j], v[i]`. -/
def byFitness.Swap (v : List individual) (i j : Nat) : List individual :=
  match v[i]?, v[j]? with
  | some x, some y => (v.set i y).set j x
  | _, _ => v

/-- The inner loop of the library `insertionSort`:
`for j := i; j > a && data.Less(j, j-1); j-- { data.Swap(j, j-1) }`. -/
def insertDown (a : Nat) : Nat → List individual → List individual
  | 0, v => v
  | j + 1, v =>
    if a < j + 1 ∧ byFitness.Less v (j + 1) j = true then
      insertDown a j (byFitness.Swap v (j + 1) j)
    else v

/-- The outer loop of the library `insertionSort` with `n` values of `i` left. -/
def insertionSortLoop (a : Nat) : Nat → Nat → List individual → List individual
  | 0, _, v => v
  | n + 1, i, v => insertionSortLoop a n (i + 1) (insertDown a i v)

/-- The library `insertionSort(data, a, b)`: `for i := a + 1; i < b; i++`. -/
def insertionSortRange (v : List individual) (a b : Nat) : List individual :=
  insertionSortLoop a (b - (a + 1)) (a + 1) v

/-- The library `order2`: the two indices in ascending order of their elements,
and the count of swaps. -/
def order2 (v : List individual) (a b swaps : Nat) : Nat × Nat × Nat :=
  if byFitness.Less v b a = true then (b, a, swaps + 1) else (a, b, swaps)

/-- The library `median`: the index of the median of three elements. -/
def median (v : List individual) (a b c swaps : Nat) : Nat × Nat :=
  let r1 := order2 v a b swaps
  let r2 := order2 v r1.2.1 c r1.2.2
  let r3 := order2 v r1.1 r2.1 r2.2.2
  (r3.2.1, r3.2.2)

/-- The library `sortedHint`. -/
inductive sortedHint where
  | unknownHint
  | increasingHint
  | decreasingHint
deriving DecidableEq, Repr

/-- The library `choosePivot` on fewer than 50 elements: a static pivot below 8
elements, the median of three from 8 on; the hint follows the count of swaps
(`maxSwaps = 12` is out of reach of three comparisons). -/
def choosePivot (v : List individual) (a b : Nat) : Option (Nat × sortedHint) :=
  let l := b - a
  let i := a + l / 4 * 1
  let j := a + l / 4 * 2
  let k := a + l / 4 * 3
  if l ≥ 8 then
    if l ≥ 50 then none
    else
      let m := median v i j k 0
      if m.2 = 0 then some (m.1, .increasingHint) else some (m.1, .unknownHint)
  else some (j, .increasingHint)

/-- The first loop of the library `partialInsertionSort`:
`for i < b && !data.Less(i, i-1) { i++ }`. -/
def scanSorted (v : List individual) (b : Nat) : Nat → Nat → Nat
  | 0, i => i
  | n + 1, i =>
    if i < b ∧ byFitness.Less v i (i - 1) = false then scanSorted v b n (i + 1) else i

/-- The library `partialInsertionSort` on fewer than 50 elements: `true` when the
range is sorted, `false` otherwise, with nothing moved. -/
def partialInsertionSort (v : List individual) (a b : Nat) : Option Bool :=
  if scanSorted v b (b - a) (a + 1) = b then some true
  else if b - a < 50 then some false
  else none

/-- The loop `for i <= j && data.Less(i, a) { i++ }` of the library `partition`. -/
def scanUp (v : List individual) (a j : Nat) : Nat → Nat → Nat
  | 0, i => i
  | n + 1, i =>
    if i ≤ j ∧ byFitness.Less v i a = true then scanUp v a j n (i + 1) else i

/-- The loop `for i <= j && !data.Less(j, a) { j-- }` of the library `partition`. -/
def scanDown (v : List individual) (a i : Nat) : Nat → Nat
  | 0 => 0
  | j + 1 =>
    if i ≤ j + 1 ∧ byFitness.Less v (j + 1) a = false then scanDown v a i j else j + 1

/-- The main loop of the library `partition`: scan up, scan down, leave when the
indices have crossed, otherwise swap and step; the result is the slice and the
index `j` at the break. -/
def partitionLoop (a : Nat) : Nat → List individual → Nat → Nat → List individual × Nat
  | 0, v, _, j => (v, j)
  | n + 1, v, i, j =>
    let i1 := scanUp v a j (j + 1 - i) i
    let j1 := scanDown v a i1 j
    if i1 > j1 then (v, j1)
    else partitionLoop a n (byFitness.Swap v i1 j1) (i1 + 1) (j1 - 1)

/-- The library `partition(data, a, b, pivot)`: the slice, the new index of the
pivot, and whether the range was already partitioned. -/
def partition (v : List individual) (a b pivot : Nat) : List individual × Nat × Bool :=
  let v1 := byFitness.Swap v a pivot
  let i := scanUp v1 a (b - 1) (b - a) (a + 1)
  let j := scanDown v1 a i (b - 1)
  if i > j then (byFitness.Swap v1 j a, j, true)
  else
    let r := partitionLoop a (b - a) (byFitness.Swap v1 i j) (i + 1) (j - 1)
    (byFitness.Swap r.1 r.2 a, r.2, false)

/-- The loop `for i <= j && !data.Less(a, i) { i++ }` of `partitionEqual`. -/
def scanUpEqual (v : List individual) (a j : Nat) : Nat → Nat → Nat
  | 0, i => i
  | n + 1, i =>
    if i ≤ j ∧ byFitness.Less v a i = false then scanUpEqual v a j n (i + 1) else i

/-- The loop `for i <= j && data.Less(a, j) { j-- }` of `partitionEqual`. -/
def scanDownEqual (v : List individual) (a i : Nat) : Nat → Nat
  | 0 => 0
  | j + 1 =>
    if i ≤ j + 1 ∧ byFitness.Less v a (j + 1) = true then scanDownEqual v a i j else j + 1

/-- The loop of the library `partitionEqual`; the result is the slice and the
index `i` at the break. -/
def partitionEqualLoop (a : Nat) : Nat → List individual → Nat → Nat → List individual × Nat
  | 0, v, i, _ => (v, i)
  | n + 1, v, i, j =>
    let i1 := scanUpEqual v a j (j + 1 - i) i
    let j1 := scanDownEqual v a i1 j
    if i1 > j1 then (v, i1)
    else partitionEqualLoop a n (byFitness.Swap v i1 j1) (i1 + 1) (j1 - 1)

/-- The library `partitionEqual(data, a, b, pivot)`. -/
def partitionEqual (v : List individual) (a b pivot : Nat) : List individual × Nat :=
  partitionEqualLoop a (b - a + 1) (byFitness.Swap v a pivot) (a + 1) (b - 1)

/-- The library `pdqsort(data, a, b, limit)` with its two flags, cut off after
`fuel` nested iterations.  `none` marks a run that leaves the modelled part:
`heapSort` on `limit == 0`, `breakPatterns` after an unbalanced partition, 50
or more elements, or the fuel. -/
def pdqsort : Nat → List individual → Nat → Nat → Nat → Bool → Bool →
    Option (List individual)
  | 0, _, _, _, _, _, _ => none
  | fuel + 1, v, a, b, limit, wasBalanced, wasPartitioned =>
    if b - a ≤ 12 then some (insertionSortRange v a b)
    else if limit = 0 then none
    else if wasBalanced = false then none
    else
      match choosePivot v a b with
      | none => none
      | some (_, .decreasingHint) => none
      | some (pivot, hint) =>
        match (if wasPartitioned = true ∧ hint = .increasingHint
            then partialInsertionSort v a b else some false) with
        | none => none
        | some true => some v
        | some false =>
          if 0 < a ∧ byFitness.Less v (a - 1) pivot = false then
            pdqsort fuel (partitionEqual v a b pivot).1 (partitionEqual v a b pivot).2 b limit
              wasBalanced wasPartitioned
          else
            let r := partition v a b pivot
            let mid := r.2.1
            if mid - a < b - mid then
              match pdqsort fuel r.1 a mid limit true true with
              | none => none
              | some v2 =>
                pdqsort fuel v2 (mid + 1) b limit (decide (mid - a ≥ (b - a) / 8)) r.2.2
            else
              match pdqsort fuel r.1 (mid + 1) b limit true true with
              | none => none
              | some v2 =>
                pdqsort fuel v2 a mid limit (decide (b - mid ≥ (b - a) / 8)) r.2.2

/-- The library `bits.Len`: the number of bits of `x`, for `x` below `2^fuel`. -/
def bitsLen : Nat → Nat → Nat
  | 0, _ => 0
  | fuel + 1, x => if x = 0 then 0 else bitsLen fuel (x / 2) + 1

/-- The library `sort.Sort(byFitness(v))`: nothing to do on fewer than two
elements, otherwise `pdqsort(data, 0, n, bits.Len(uint(n)))`. -/
def goSort (v : List individual) : Option (List individual) :=
  if v.length ≤ 1 then some v
  else pdqsort (v.length + 1) v 0 v.length (bitsLen v.length v.length) true true

/-- The library sort as a total function: the result of `goSort` where the run
stays within the modelled part and the result is a sorted rearrangement, and
an insertion sort by cached fitness on the other runs. -/
def librarySort (l : List individual) : List individual :=
  match goSort l with
  | some s =>
    if s.Perm l ∧ s.Pairwise (fun a b => ¬ b.fitness < a.fitness) then s
    else insertionSorter.sort l
  | none => insertionSorter.sort l

/-- The sorter that runs the library sort. -/
def goSorter : Sorter where
  sort := librarySort
  perm := by
    intro l
    unfold librarySort
    split
    · split
      · rename_i h; exact h.1
      · exact insertionSorter.perm l
    · exact insertionSorter.perm l
  sorted := by
    intro l
    unfold librarySort
    split
    · split
      · rename_i h; exact h.2
      · exact insertionSorter.sorted l
    · exact insertionSorter.sorted l

/-- The genome of `n` genes with a single 1 at position `i`. -/
def oneHot (n i : Nat) : List Int :=
  (List.range n).map (fun j => if j = i then 1 else 0)

/-- The individual whose genome is `oneHot 13 i`, of fitness 1. -/
def tied (i : Nat) : individual := ⟨oneHot 13 i, 13, 1, 0⟩

/-- The individual of 13 genes that are all 0, of fitness 0. -/
def weakest : individual := ⟨List.replicate 13 0, 13, 0, 0⟩

/-- A population of thirteen individuals: twelve of fitness 1, pairwise
different, and then one of fitness 0. -/
def tiePopulation13 : population exactFloat :=
  ⟨[tied 0, tied 1, tied 2, tied 3, tied 4, tied 5, tied 6, tied 7, tied 8, tied 9,
    tied 10, tied 11, weakest], 3, 13, (0, 1)⟩

/-- A configuration that retains three individuals of 13 genes, no stop at the
first perfect individual. -/
def sampleConfigKeepThree : Config exactFloat := ⟨(0, 1), 3, 13, 10, 5, (13, 1), false⟩

/-! ## Fitness -/

theorem fitness_foldl_acc (vals : List Int) (c : Int) :
    vals.foldl (fun cnt v => if v > 0 then cnt + 1 else cnt) c
      = c + (vals.countP (fun v => decide (v > 0)) : Nat) := by
  induction vals generalizing c with
  | nil => simp
  | cons v vs ih =>
    rw [List.foldl_cons, ih, List.countP_cons]
    by_cases hv : v > 0
    · simp [hv]; ring
    · simp [hv]

theorem fitness_eq_countP (vals : List Int) :
    fitness vals = (vals.countP (fun v => decide (v > 0)) : Nat) := by
  unfold fitness
  rw [fitness_foldl_acc]
  simp

theorem fitness_nil : fitness [] = 0 := rfl

theorem fitness_cons (v : Int) (vs : List Int) :
    fitness (v :: vs) = (if v > 0 then 1 else 0) + fitness vs := by
  rw [fitness_eq_countP, fitness_eq_countP, List.countP_cons]
  by_cases hv : v > 0
  · simp [hv]; ring
  · simp [hv]

theorem fitness_append (xs ys : List Int) :
    fitness (xs ++ ys) = fitness xs + fitness ys := by
  rw [fitness_eq_countP, fitness_eq_countP, fitness_eq_countP, List.countP_append]
  push_cast
  rfl

theorem fitness_nonneg (vals : List Int) : 0 ≤ fitness vals := by
  rw [fitness_eq_countP]
  exact Int.natCast_nonneg _

theorem fitness_le_length (vals : List Int) : fitness vals ≤ vals.length := by
  rw [fitness_eq_countP]
  exact_mod_cast List.countP_le_length _

theorem count_positions (genome : List Int) (a : Int) :
    ((List.range genome.length).filter
        (fun i => decide (genome.getD i 0 = a))).length = genome.count a := by
  induction genome with
  | nil => simp
  | cons v vs ih =>
    rw [List.length_cons, List.range_succ_eq_map, List.filter_cons, List.filter_map,
      List.count_cons]
    have hfun : ((fun i => decide ((v :: vs).getD i 0 = a)) ∘ Nat.succ)
        = (fun i => decide (vs.getD i 0 = a)) := by
      funext i
      simp
    rw [hfun]
    by_cases hv : v = a
    · simp only [hv, List.getD_cons_zero, decide_True, List.length_cons, List.length_map,
        beq_self_eq_true, if_true, ih]
    · have hv' : (v == a) = false := by simpa using hv
      simp only [hv, List.getD_cons_zero, decide_False, List.length_map, hv', ih]
      simp only [Bool.false_eq_true, if_false, add_zero]
      rw [List.length_map, ih]

theorem countP_pos_eq_count_one (genome : List Int)
    (hbin : ∀ g ∈ genome, g = 0 ∨ g = 1) :
    genome.countP (fun v => decide (v > 0)) = genome.count 1 := by
  induction genome with
  | nil => simp
  | cons v vs ih =>
    have hv := hbin v (List.mem_cons_self _ _)
    have ih' := ih (fun g hg => hbin g (List.mem_cons_of_mem _ hg))
    rw [List.countP_cons, List.count_cons, ih']
    rcases hv with hv | hv <;> simp [hv]

/-! ## Crossover -/

theorem crossoverAt_ok (k : Int) (x y : individual)
    (h0 : 0 ≤ k) (hx : k ≤ x.entities.length) (hy : k ≤ y.entities.length) :
    crossoverAt k x y = .ok
      (⟨x.entities.take k.toNat ++ y.entities.drop k.toNat,
        ((x.entities.take k.toNat ++ y.entities.drop k.toNat).length : Int),
        fitness (x.entities.take k.toNat ++ y.entities.drop k.toNat), 0⟩,
       ⟨y.entities.take k.toNat ++ x.entities.drop k.toNat,
        ((y.entities.take k.toNat ++ x.entities.drop k.toNat).length : Int),
        fitness (y.entities.take k.toNat ++ x.entities.drop k.toNat), 0⟩) := by
  simp [crossoverAt, sliceTo, sliceFrom, h0, hx, hy, bind, Outcome.bind, pure]

theorem take_append_drop_length (xs ys : List Int) (k : Nat)
    (h : xs.length = ys.length) (hk : k ≤ xs.length) :
    (xs.take k ++ ys.drop k).length = xs.length := by
  simp only [List.length_append, List.length_take, List.length_drop]
  omega

/-- Claim C1.  For two parents whose genomes have the same length L and every
crossover point k with 0 <= k <= L, the recombination step of
RandomOnePointCrossover returns child1 = A[0:k] ++ B[k:] and
child2 = B[0:k] ++ A[k:], both of length L; RandomOnePointCrossover itself
returns these children for the point k it draws from rand.Intn(L); and the
parents [0,0,0,0], [1,1,1,1] cut at k = 2 give [0,0,1,1] and [1,1,0,0], each of
fitness 2. -/
theorem C1_crossover_children (A B : individual) (k : Int)
    (hlen : A.entities.length = B.entities.length)
    (h0 : 0 ≤ k) (hk : k ≤ A.entities.length) :
    (∃ c1 c2, crossoverAt k A B = .ok (c1, c2)
        ∧ c1.entities = A.entities.take k.toNat ++ B.entities.drop k.toNat
        ∧ c2.entities = B.entities.take k.toNat ++ A.entities.drop k.toNat
        ∧ c1.entities.length = A.entities.length
        ∧ c2.entities.length = A.entities.length
        ∧ c1.fitness = fitness c1.entities ∧ c2.fitness = fitness c2.entities)
    ∧ (∀ r : Rand, 0 < A.entities.length →
        ∃ c1 c2, RandomOnePointCrossover A B r = .ok ((c1, c2), r.advance)
          ∧ crossoverAt ((r.peek : Int) % A.entities.length) A B = .ok (c1, c2))
    ∧ crossoverAt 2 ⟨[0, 0, 0, 0], 4, 0, 0⟩ ⟨[1, 1, 1, 1], 4, 4, 0⟩
        = .ok (⟨[0, 0, 1, 1], 4, 2, 0⟩, ⟨[1, 1, 0, 0], 4, 2, 0⟩) := by
  have hkB : k ≤ B.entities.length := by rw [← hlen]; exact hk
  have hkn : k.toNat ≤ A.entities.length := by omega
  refine ⟨⟨_, _, crossoverAt_ok k A B h0 hk hkB, rfl, rfl, ?_, ?_, rfl, rfl⟩, ?_, ?_⟩
  · exact take_append_drop_length _ _ _ hlen hkn
  · rw [take_append_drop_length _ _ _ hlen.symm (by omega)]; exact hlen.symm
  · intro r hpos
    have hL : (0 : Int) < A.entities.length := by exact_mod_cast hpos
    have hm0 : 0 ≤ (r.peek : Int) % A.entities.length :=
      Int.emod_nonneg _ (ne_of_gt hL)
    have hm1 : (r.peek : Int) % A.entities.length < A.entities.length :=
      Int.emod_lt_of_pos _ hL
    have hm2 : (r.peek : Int) % A.entities.length ≤ B.entities.length := by
      rw [← hlen]; exact le_of_lt hm1
    refine ⟨_, _, ?_, crossoverAt_ok _ A B hm0 (le_of_lt hm1) hm2⟩
    simp [RandomOnePointCrossover, Intn, not_le.mpr hL, bind, Outcome.bind, pure,
      crossoverAt_ok _ A B hm0 (le_of_lt hm1) hm2]
  · decide

/-- The scenario of C1 obtained from the general statement: parents [0,0,0,0]
and [1,1,1,1] cut at k = 2. -/
theorem C1_crossover_children_witness :
    (∃ c1 c2, crossoverAt 2 ⟨[0, 0, 0, 0], 4, 0, 0⟩ ⟨[1, 1, 1, 1], 4, 4, 0⟩ = .ok (c1, c2)
        ∧ c1.entities = [0, 0, 1, 1] ∧ c2.entities = [1, 1, 0, 0]
        ∧ c1.entities.length = 4 ∧ c2.entities.length = 4
        ∧ c1.fitness = fitness c1.entities ∧ c2.fitness = fitness c2.entities) :=
  (C1_crossover_children ⟨[0, 0, 0, 0], 4, 0, 0⟩ ⟨[1, 1, 1, 1], 4, 4, 0⟩ 2
    (by decide) (by decide) (by decide)).1

/-- Claim C2.  On a genome whose genes are all 0 or 1, fitness returns the number
of positions holding 1. -/
theorem C2_fitness_counts_ones (genome : List Int)
    (hbin : ∀ g ∈ genome, g = 0 ∨ g = 1) :
    fitness genome = (genome.count 1 : Nat)
    ∧ fitness genome = ((List.range genome.length).filter
        (fun i => decide (genome.getD i 0 = 1))).length := by
  have h1 : fitness genome = (genome.count 1 : Nat) := by
    rw [fitness_eq_countP, countP_pos_eq_count_one genome hbin]
  exact ⟨h1, by rw [h1, count_positions]⟩

/-- The statement of C2 at the genome [1, 0, 1, 1], whose fitness is 3. -/
theorem C2_fitness_counts_ones_witness :
    (∀ g ∈ ([1, 0, 1, 1] : List Int), g = 0 ∨ g = 1)
    ∧ fitness [1, 0, 1, 1] = ((([1, 0, 1, 1] : List Int).count 1 : Nat) : Int)
    ∧ fitness [1, 0, 1, 1] = 3 :=
  ⟨by decide, (C2_fitness_counts_ones [1, 0, 1, 1] (by decide)).1, by decide⟩

/-! ## Truncation -/

theorem avgLoop_eq (M : Float64Model) (stop : Bool) (maxFitness : Int)
    (l : List individual) (acc : M.F) :
    avgLoop M stop maxFitness l acc
      = match l.find? (fun i => stop && decide (fitness i.entities = maxFitness)) with
        | some w => .exit w
        | none => .ok (l.foldl (fun a i => M.add a (M.ofInt (fitness i.entities))) acc) := by
  induction l generalizing acc with
  | nil => rfl
  | cons i rest ih =>
    by_cases hc : (stop && decide (fitness i.entities = maxFitness)) = true
    · simp only [avgLoop, hc, if_true, List.find?_cons_of_pos]
    · have hc' : (stop && decide (fitness i.entities = maxFitness)) = false := by
        simpa using hc
      simp only [avgLoop, hc', Bool.false_eq_true, if_false, List.find?_cons, List.foldl_cons]
      exact ih _

theorem avgLoop_ne_panic (M : Float64Model) (stop : Bool) (maxFitness : Int)
    (l : List individual) (acc : M.F) :
    avgLoop M stop maxFitness l acc ≠ .panic ∧ avgLoop M stop maxFitness l acc ≠ .hang := by
  rw [avgLoop_eq]
  split <;> simp

theorem RefreshAvgFitness_ne_panic {M : Float64Model} (cfg : Config M) (p : population M) :
    p.RefreshAvgFitness cfg ≠ .panic ∧ p.RefreshAvgFitness cfg ≠ .hang := by
  have h := avgLoop_ne_panic M cfg.stopAtFirstPerfect p.maxFitness p.individuals (M.ofInt 0)
  unfold population.RefreshAvgFitness
  simp only [bind, Outcome.bind, pure]
  cases hl : avgLoop M cfg.stopAtFirstPerfect p.maxFitness p.individuals (M.ofInt 0) with
  | ok acc => simp
  | panic => exact absurd hl h.1
  | exit w => simp
  | hang => exact absurd hl h.2

theorem RefreshAvgFitness_ok {M : Float64Model} (cfg : Config M) (p p' : population M)
    (h : p.RefreshAvgFitness cfg = .ok p') :
    ∃ acc, avgLoop M cfg.stopAtFirstPerfect p.maxFitness p.individuals (M.ofInt 0) = .ok acc
      ∧ p' = { p with avgFitness := M.div acc (M.ofInt p.individuals.length) } := by
  unfold population.RefreshAvgFitness at h
  simp only [bind, Outcome.bind, pure] at h
  cases hl : avgLoop M cfg.stopAtFirstPerfect p.maxFitness p.individuals (M.ofInt 0) with
  | ok acc =>
    rw [hl] at h
    simp only [Outcome.ok.injEq] at h
    exact ⟨acc, rfl, h.symm⟩
  | panic => rw [hl] at h; simp at h
  | exit w => rw [hl] at h; simp at h
  | hang => rw [hl] at h; simp at h

theorem RefreshAvgFitness_ok_individuals {M : Float64Model} (cfg : Config M)
    (p p' : population M) (h : p.RefreshAvgFitness cfg = .ok p') :
    p'.individuals = p.individuals ∧ p'.maxIndividuals = p.maxIndividuals
      ∧ p'.maxFitness = p.maxFitness := by
  obtain ⟨acc, _, hp⟩ := RefreshAvgFitness_ok cfg p p' h
  subst hp
  exact ⟨rfl, rfl, rfl⟩

theorem KillWeak_ok {M : Float64Model} (S : Sorter) (cfg : Config M) (p p' : population M)
    (h : p.KillWeak S cfg = .ok p') :
    0 ≤ ((S.sort p.individuals).length : Int) - cfg.amountOfIndividuals
    ∧ ((S.sort p.individuals).length : Int) - cfg.amountOfIndividuals
        ≤ (S.sort p.individuals).length
    ∧ p'.individuals = (S.sort p.individuals).drop
        (((S.sort p.individuals).length : Int) - cfg.amountOfIndividuals).toNat
    ∧ p'.maxIndividuals = p.maxIndividuals ∧ p'.maxFitness = p.maxFitness := by
  unfold population.KillWeak at h
  simp only at h
  split at h
  · rename_i hb
    obtain ⟨h1, h2, h3⟩ := RefreshAvgFitness_ok_individuals cfg _ p' h
    exact ⟨hb.1, hb.2, h1, h2, h3⟩
  · simp at h

theorem Sorter.length_sort (S : Sorter) (l : List individual) :
    (S.sort l).length = l.length := (S.perm l).length_eq

theorem KillWeak_ok_length {M : Float64Model} (S : Sorter) (cfg : Config M)
    (p p' : population M) (h : p.KillWeak S cfg = .ok p') :
    (p'.individuals.length : Int) = cfg.amountOfIndividuals := by
  obtain ⟨h0, h1, hi, _, _⟩ := KillWeak_ok S cfg p p' h
  rw [hi, List.length_drop]
  omega

theorem Sorter.sorted_fitnessValues (S : Sorter) (l : List individual) :
    (fitnessValues (S.sort l)).Pairwise (fun a b => a ≤ b) := by
  unfold fitnessValues
  rw [List.pairwise_map]
  exact (S.sorted l).imp (fun h => not_lt.mp h)

theorem largest_eq_of_sorted_perm (n : Nat) (vals fs : List Int)
    (hperm : fs.Perm vals) (hsorted : fs.Pairwise (fun a b => a ≤ b)) :
    largest n vals = (fs.drop (fs.length - n)).reverse := by
  unfold largest
  have hrev : fs.reverse.Sorted (fun a b : Int => b ≤ a) := by
    unfold List.Sorted
    rw [List.pairwise_reverse]
    exact hsorted
  have hins : (vals.insertionSort (fun a b : Int => b ≤ a)).Sorted (fun a b => b ≤ a) :=
    @List.sorted_insertionSort Int (fun a b => b ≤ a) _
      ⟨fun a b => le_total b a⟩ ⟨fun a b c hab hbc => le_trans hbc hab⟩ vals
  have hp : (vals.insertionSort (fun a b : Int => b ≤ a)).Perm fs.reverse :=
    ((List.perm_insertionSort _ vals).trans hperm.symm).trans (List.reverse_perm fs).symm
  have heq : vals.insertionSort (fun a b : Int => b ≤ a) = fs.reverse :=
    @List.eq_of_perm_of_sorted Int (fun a b => b ≤ a)
      ⟨fun a b hab hba => le_antisymm hba hab⟩ _ _ hp hins hrev
  rw [heq, List.take_reverse]

theorem KillWeak_ne_panic {M : Float64Model} (S : Sorter) (cfg : Config M)
    (p : population M) (hN0 : 0 ≤ cfg.amountOfIndividuals)
    (hN : cfg.amountOfIndividuals ≤ p.individuals.length) :
    p.KillWeak S cfg ≠ .panic ∧ p.KillWeak S cfg ≠ .hang := by
  have hlen := S.length_sort p.individuals
  unfold population.KillWeak
  simp only
  rw [if_pos (by constructor <;> omega)]
  exact RefreshAvgFitness_ne_panic cfg _

theorem KillWeak_ok_truncation {M : Float64Model} (S : Sorter) (cfg : Config M)
    (p p' : population M) (hN0 : 0 ≤ cfg.amountOfIndividuals)
    (hok : p.KillWeak S cfg = .ok p') :
    (↑(fitnessValues p'.individuals) : Multiset Int)
        = ↑(largest cfg.amountOfIndividuals.toNat (fitnessValues p.individuals))
    ∧ (p'.individuals.length : Int) = cfg.amountOfIndividuals
    ∧ ∃ removed : List individual, (removed ++ p'.individuals).Perm p.individuals
        ∧ ∀ kept ∈ p'.individuals, ∀ d ∈ removed, d.fitness ≤ kept.fitness := by
  obtain ⟨h0, h1, hi, _, _⟩ := KillWeak_ok S cfg p p' hok
  have hlen := S.length_sort p.individuals
  have hlow : (((S.sort p.individuals).length : Int) - cfg.amountOfIndividuals).toNat
      = (S.sort p.individuals).length - cfg.amountOfIndividuals.toNat := by omega
  refine ⟨?_, KillWeak_ok_length S cfg p p' hok, ?_⟩
  · have hl := largest_eq_of_sorted_perm cfg.amountOfIndividuals.toNat
      (fitnessValues p.individuals) (fitnessValues (S.sort p.individuals))
      ((S.perm p.individuals).map _) (S.sorted_fitnessValues p.individuals)
    rw [hl, hi, hlow]
    have hfl : (fitnessValues (S.sort p.individuals)).length = (S.sort p.individuals).length := by
      simp [fitnessValues]
    rw [hfl]
    apply Quotient.sound
    have hmap : fitnessValues (List.drop ((S.sort p.individuals).length
          - cfg.amountOfIndividuals.toNat) (S.sort p.individuals))
        = List.drop ((S.sort p.individuals).length - cfg.amountOfIndividuals.toNat)
            (fitnessValues (S.sort p.individuals)) := by
      simp [fitnessValues, List.map_drop]
    rw [hmap]
    exact (List.reverse_perm _).symm
  · refine ⟨(S.sort p.individuals).take
      (((S.sort p.individuals).length : Int) - cfg.amountOfIndividuals).toNat, ?_, ?_⟩
    · rw [hi, List.take_append_drop]
      exact S.perm p.individuals
    · intro kept hkept d hd
      have hs := S.sorted p.individuals
      rw [← List.take_append_drop
        (((S.sort p.individuals).length : Int) - cfg.amountOfIndividuals).toNat
        (S.sort p.individuals), List.pairwise_append] at hs
      rw [hi] at hkept
      exact not_lt.mp (hs.2.2 d hd kept hkept)

theorem KillWeak_ok_subset {M : Float64Model} (S : Sorter) (cfg : Config M)
    (p p' : population M) (h : p.KillWeak S cfg = .ok p') :
    ∀ i ∈ p'.individuals, i ∈ p.individuals := by
  obtain ⟨_, _, hi, _, _⟩ := KillWeak_ok S cfg p p' h
  intro i hmem
  rw [hi] at hmem
  exact (S.perm p.individuals).subset (List.mem_of_mem_drop hmem)

theorem fitnessValues_of_consistent (l : List individual)
    (h : ∀ i ∈ l, i.fitness = fitness i.entities) :
    fitnessValues l = l.map (fun i => fitness i.entities) :=
  List.map_congr_left h

/-- Claim C3.  When the population holds at least N = amountOfIndividuals
individuals (N >= 0), KillWeak does not fail, and whenever it returns without
the early exit the multiset of cached fitness values of the retained
individuals is the multiset of the N largest fitness values of the population
before the call; the retained individuals are N in number, together with the
removed ones they are a rearrangement of the population before the call, and
every retained fitness is at least every removed fitness.  When the cached
fitness of every individual is the fitness of its genome, the same holds of
the recomputed values fitness(entities). -/
theorem C3_killWeak_truncation {M : Float64Model} (S : Sorter) (cfg : Config M)
    (p : population M)
    (hN0 : 0 ≤ cfg.amountOfIndividuals)
    (hN : cfg.amountOfIndividuals ≤ p.individuals.length) :
    (p.KillWeak S cfg ≠ .panic ∧ p.KillWeak S cfg ≠ .hang)
    ∧ ∀ p' : population M, p.KillWeak S cfg = .ok p' →
      (↑(fitnessValues p'.individuals) : Multiset Int)
          = ↑(largest cfg.amountOfIndividuals.toNat (fitnessValues p.individuals))
      ∧ (p'.individuals.length : Int) = cfg.amountOfIndividuals
      ∧ (∃ removed : List individual, (removed ++ p'.individuals).Perm p.individuals
          ∧ ∀ kept ∈ p'.individuals, ∀ d ∈ removed, d.fitness ≤ kept.fitness)
      ∧ ((∀ i ∈ p.individuals, i.fitness = fitness i.entities) →
          (↑(p'.individuals.map (fun i => fitness i.entities)) : Multiset Int)
            = ↑(largest cfg.amountOfIndividuals.toNat
                (p.individuals.map (fun i => fitness i.entities)))) := by
  refine ⟨KillWeak_ne_panic S cfg p hN0 hN, fun p' hok => ?_⟩
  obtain ⟨h1, h2, h3⟩ := KillWeak_ok_truncation S cfg p p' hN0 hok
  refine ⟨h1, h2, h3, fun hcons => ?_⟩
  have hsub := KillWeak_ok_subset S cfg p p' hok
  rw [← fitnessValues_of_consistent p.individuals hcons,
    ← fitnessValues_of_consistent p'.individuals (fun i hi => hcons i (hsub i hi))]
  exact h1

/-- The statement of C3 on a population of three individuals with fitness 1, 0
and 2, of which N = 2 are retained: those with fitness 1 and 2. -/
theorem C3_killWeak_truncation_witness :
    samplePopulation.KillWeak insertionSorter sampleConfig = .ok sampleTruncated
    ∧ (↑(fitnessValues sampleTruncated.individuals) : Multiset Int)
        = ↑(largest 2 (fitnessValues samplePopulation.individuals))
    ∧ (sampleTruncated.individuals.length : Int) = 2
    ∧ (∃ removed : List individual,
        (removed ++ sampleTruncated.individuals).Perm samplePopulation.individuals
        ∧ ∀ kept ∈ sampleTruncated.individuals, ∀ d ∈ removed, d.fitness ≤ kept.fitness)
    ∧ ((∀ i ∈ samplePopulation.individuals, i.fitness = fitness i.entities) →
        (↑(sampleTruncated.individuals.map (fun i => fitness i.entities)) : Multiset Int)
          = ↑(largest 2 (samplePopulation.individuals.map (fun i => fitness i.entities)))) :=
  ⟨rfl, (C3_killWeak_truncation insertionSorter sampleConfig samplePopulation
    (by decide) (by decide)).2 sampleTruncated rfl⟩

/-! ## Initialization -/

theorem Outcome.bind_eq_ok {α β : Type} (o : Outcome α) (f : α → Outcome β) (b : β)
    (h : o.bind f = .ok b) : ∃ a, o = .ok a ∧ f a = .ok b := by
  cases o with
  | ok a => exact ⟨a, rfl, h⟩
  | panic => simp [Outcome.bind] at h
  | exit w => simp [Outcome.bind] at h
  | hang => simp [Outcome.bind] at h

theorem Intn_two (r : Rand) :
    ∃ v, Intn 2 r = .ok (v, r.advance) ∧ (v = 0 ∨ v = 1) := by
  refine ⟨(r.peek : Int) % 2, ?_, ?_⟩
  · simp [Intn]
  · omega

theorem fillRandom_ok (n : Nat) (r : Rand) :
    ∃ vs, fillRandom n r = .ok (vs, ⟨r.draws, r.pos + n⟩) ∧ vs.length = n
      ∧ ∀ v ∈ vs, v = 0 ∨ v = 1 := by
  induction n generalizing r with
  | zero => exact ⟨[], rfl, rfl, by simp⟩
  | succ n ih =>
    obtain ⟨v, hv, hbin⟩ := Intn_two r
    obtain ⟨vs, hvs, hlen, hall⟩ := ih r.advance
    refine ⟨v :: vs, ?_, by simp [hlen], ?_⟩
    · have hvs' : fillRandom n { draws := r.draws, pos := r.pos + 1 }
          = .ok (vs, ⟨r.draws, r.pos + (n + 1)⟩) := by
        have h := hvs
        simp only [Rand.advance] at h
        rw [h, show r.pos + 1 + n = r.pos + (n + 1) by omega]
      simp only [fillRandom, bind, Outcome.bind, hv, pure, Rand.advance, hvs']
    · intro x hx
      rcases List.mem_cons.mp hx with h | h
      · rw [h]; exact hbin
      · exact hall x h

theorem createRandomValues_ok (M : Float64Model) (length : Int) (r : Rand)
    (hl : 0 ≤ length) (hmax : length ≤ M.maxSliceLen) :
    ∃ vs, createRandomValues M length r = .ok (vs, ⟨r.draws, r.pos + length.toNat⟩)
      ∧ (vs.length : Int) = length ∧ ∀ v ∈ vs, v = 0 ∨ v = 1 := by
  obtain ⟨vs, hvs, hlen, hall⟩ := fillRandom_ok length.toNat r
  refine ⟨vs, ?_, by omega, hall⟩
  simp [createRandomValues, not_lt.mpr hl, not_lt.mpr hmax, hvs]

theorem createRandomValues_panic (M : Float64Model) (length : Int) (r : Rand)
    (h : length < 0 ∨ M.maxSliceLen < length) : createRandomValues M length r = .panic := by
  simp [createRandomValues, h]

theorem createRandomValues_inv (M : Float64Model) (length : Int) (r r' : Rand)
    (vs : List Int) (h : createRandomValues M length r = .ok (vs, r')) :
    0 ≤ length ∧ (vs.length : Int) = length ∧ ∀ v ∈ vs, v = 0 ∨ v = 1 := by
  by_cases hb : length < 0 ∨ M.maxSliceLen < length
  · rw [createRandomValues_panic M length r hb] at h
    simp at h
  · have hl : 0 ≤ length := by omega
    obtain ⟨vs', hvs, hlen, hall⟩ := createRandomValues_ok M length r hl (by omega)
    rw [hvs] at h
    simp only [Outcome.ok.injEq, Prod.mk.injEq] at h
    rw [← h.1]
    exact ⟨hl, hlen, hall⟩

theorem initLoop_inv {M : Float64Model} (length : Int) (n : Nat) (p p1 : population M)
    (r r' : Rand) (h : initLoop length n p r = .ok (p1, r')) :
    p1.maxIndividuals = p.maxIndividuals ∧ p1.maxFitness = p.maxFitness
      ∧ p1.avgFitness = p.avgFitness
      ∧ ∃ fresh, p1.individuals = p.individuals ++ fresh ∧ fresh.length = n
          ∧ ∀ i ∈ fresh, FreshIndividual length i := by
  induction n generalizing p r with
  | zero =>
    simp only [initLoop, Outcome.ok.injEq, Prod.mk.injEq] at h
    rw [← h.1]
    exact ⟨rfl, rfl, rfl, [], by simp, rfl, by simp⟩
  | succ n ih =>
    simp only [initLoop, bind] at h
    obtain ⟨⟨vs, r1⟩, hc, hrest⟩ := Outcome.bind_eq_ok _ _ _ h
    obtain ⟨hl, hlen, hbin⟩ := createRandomValues_inv M length r r1 vs hc
    obtain ⟨h1, h2, h3, fresh, hf, hfl, hfa⟩ := ih _ _ hrest
    refine ⟨h1, h2, h3, ⟨vs, length, fitness vs, 0⟩ :: fresh, ?_, by simp [hfl], ?_⟩
    · rw [hf]; simp [population.AppendIndividual]
    · intro i hi
      rcases List.mem_cons.mp hi with h | h
      · rw [h]; exact ⟨hlen, hbin, rfl, rfl, rfl⟩
      · exact hfa i h

theorem Initialize_inv {M : Float64Model} (p p1 : population M) (amount length : Int)
    (r r' : Rand) (h : p.Initialize amount length r = .ok (p1, r')) :
    p1.maxIndividuals = amount ∧ p1.maxFitness = length ∧ p1.avgFitness = p.avgFitness
      ∧ ∃ fresh, p1.individuals = p.individuals ++ fresh ∧ fresh.length = amount.toNat
          ∧ ∀ i ∈ fresh, FreshIndividual length i :=
  initLoop_inv length amount.toNat _ p1 r r' h

theorem foldl_AppendIndividual {M : Float64Model} (extra : List individual)
    (p : population M) :
    (extra.foldl population.AppendIndividual p).maxIndividuals = p.maxIndividuals
    ∧ (extra.foldl population.AppendIndividual p).maxFitness = p.maxFitness
    ∧ (extra.foldl population.AppendIndividual p).individuals = p.individuals ++ extra := by
  induction extra generalizing p with
  | nil => simp
  | cons i rest ih =>
    obtain ⟨h1, h2, h3⟩ := ih (p.AppendIndividual i)
    simp only [List.foldl_cons]
    refine ⟨h1, h2, ?_⟩
    rw [h3]
    simp [population.AppendIndividual]

/-- Claim C4, as the code has it.  KillWeak cuts to the flag amountOfIndividuals,
not to the field maxIndividuals: for a population built by Initialize(size,
length) and grown by any appends, a KillWeak that returns leaves exactly
amountOfIndividuals individuals, while maxIndividuals still holds size; the two
agree, and exactly size individuals are left, when Initialize was called with
size = amountOfIndividuals, as main does. -/
theorem C4_killWeak_size {M : Float64Model} (S : Sorter) (cfg : Config M)
    (p0 p1 p' : population M) (size length : Int) (r r' : Rand) (extra : List individual)
    (hinit : p0.Initialize size length r = .ok (p1, r'))
    (hok : (extra.foldl population.AppendIndividual p1).KillWeak S cfg = .ok p') :
    (p'.individuals.length : Int) = cfg.amountOfIndividuals
    ∧ p'.maxIndividuals = size
    ∧ (size = cfg.amountOfIndividuals → (p'.individuals.length : Int) = size) := by
  have hlen := KillWeak_ok_length S cfg _ p' hok
  obtain ⟨_, _, _, hmax, _⟩ := KillWeak_ok S cfg _ p' hok
  obtain ⟨hm, _⟩ := Initialize_inv p0 p1 size length r r' hinit
  refine ⟨hlen, ?_, fun h => by rw [hlen, h]⟩
  rw [hmax, (foldl_AppendIndividual extra p1).1, hm]

/-- The statement of C4 at Initialize(3, 1), no appends, amountOfIndividuals = 2. -/
theorem C4_killWeak_size_witness :
    (sampleInitializedTruncated.individuals.length : Int) = sampleConfig.amountOfIndividuals
    ∧ sampleInitializedTruncated.maxIndividuals = 3
    ∧ ((3 : Int) = sampleConfig.amountOfIndividuals →
        (sampleInitializedTruncated.individuals.length : Int) = 3) :=
  C4_killWeak_size insertionSorter sampleConfig (population.zero exactFloat)
    sampleInitialized sampleInitializedTruncated 3 1 zeroRand ⟨fun _ => 0, 3⟩ [] rfl rfl

/-- Claim C4 fails as stated: Initialize(3, 1) stores maxIndividuals = 3, and
with amountOfIndividuals = 2 KillWeak returns and leaves 2 individuals, not 3. -/
theorem C4_counterexample :
    (population.zero exactFloat).Initialize 3 1 zeroRand
        = .ok (sampleInitialized, ⟨fun _ => 0, 3⟩)
    ∧ sampleInitialized.maxIndividuals = 3
    ∧ sampleInitialized.KillWeak insertionSorter sampleConfig = .ok sampleInitializedTruncated
    ∧ sampleInitializedTruncated.maxIndividuals = 3
    ∧ sampleInitializedTruncated.individuals.length = 2
    ∧ (sampleInitializedTruncated.individuals.length : Int) ≠ 3 :=
  ⟨rfl, rfl, rfl, rfl, rfl, by decide⟩

/-! ## Indexing, flipping, mutation -/

theorem index_ok {α : Type} (s : List α) (i : Int) (a : α) (h : index s i = .ok a) :
    0 ≤ i ∧ i < s.length ∧ s[i.toNat]? = some a := by
  unfold index at h
  split at h
  · rename_i h0
    cases hg : s[i.toNat]? with
    | none => rw [hg] at h; simp at h
    | some b =>
      rw [hg] at h
      simp only [Outcome.ok.injEq] at h
      have hlt : i.toNat < s.length := by
        by_contra hge
        rw [List.getElem?_eq_none (not_lt.mp hge)] at hg
        simp at hg
      exact ⟨h0, by omega, by rw [h]⟩
  · simp at h

theorem index_ok_mem {α : Type} (s : List α) (i : Int) (a : α) (h : index s i = .ok a) :
    a ∈ s :=
  List.getElem?_mem (index_ok s i a h).2.2

theorem index_of_lt {α : Type} (s : List α) (i : Int) (h0 : 0 ≤ i) (h1 : i < s.length) :
    ∃ a, index s i = .ok a ∧ s[i.toNat]? = some a := by
  have hlt : i.toNat < s.length := by omega
  refine ⟨s[i.toNat], ?_, List.getElem?_eq_getElem hlt⟩
  simp [index, h0, List.getElem?_eq_getElem hlt]

theorem FlipTheBit_of_lt (i : individual) (pos : Int) (h0 : 0 ≤ pos)
    (h1 : pos < i.entities.length) :
    ∃ oldval, i.entities[pos.toNat]? = some oldval
      ∧ i.FlipTheBit pos
        = .ok { i with entities := i.entities.set pos.toNat (if oldval = 0 then 1 else 0) } := by
  obtain ⟨a, ha, hg⟩ := index_of_lt i.entities pos h0 h1
  refine ⟨a, hg, ?_⟩
  simp [individual.FlipTheBit, individual.SetEntity, ha, h0, h1, bind, Outcome.bind]

theorem mutateLoop_ok (M : Float64Model) (rate : M.F) (n : Nat) (j : Int) (i : individual)
    (r : Rand) (h0 : 0 ≤ j) (h1 : j + n ≤ i.entities.length) :
    ∃ i', mutateLoop M rate n j i r = .ok (i', ⟨r.draws, r.pos + n⟩)
      ∧ i'.entities.length = i.entities.length ∧ i'.amount = i.amount
      ∧ i'.fitness = i.fitness ∧ i'.generation = i.generation := by
  induction n generalizing j i r with
  | zero => exact ⟨i, rfl, rfl, rfl, rfl, rfl⟩
  | succ n ih =>
    have hshift : ∀ q : Nat, q + 1 + n = q + (n + 1) := fun q => by omega
    by_cases hflip : M.lt (M.unit r.peek) rate = true
    · obtain ⟨oldval, _, hf⟩ := FlipTheBit_of_lt i j h0 (by push_cast at h1; omega)
      obtain ⟨i', hi', hl, ha, hfit, hg⟩ := ih (j + 1)
        { i with entities := i.entities.set j.toNat (if oldval = 0 then 1 else 0) }
        r.advance (by omega) (by simp only [List.length_set]; push_cast at h1; omega)
      simp only [Rand.advance, hshift] at hi'
      refine ⟨i', ?_, by rw [hl, List.length_set], ha, hfit, hg⟩
      simp only [mutateLoop, hflip, if_true, bind, Outcome.bind, hf, hi', Rand.advance]
    · obtain ⟨i', hi', hl, ha, hfit, hg⟩ := ih (j + 1) i r.advance (by omega)
        (by push_cast at h1; omega)
      simp only [Rand.advance, hshift] at hi'
      refine ⟨i', ?_, hl, ha, hfit, hg⟩
      simp only [mutateLoop, hflip, Bool.false_eq_true, if_false, hi', Rand.advance]

theorem Mutate_ok {M : Float64Model} (cfg : Config M) (i : individual) (r : Rand) :
    ∃ i', i.Mutate cfg r = .ok (i', ⟨r.draws, r.pos + i.entities.length⟩)
      ∧ i'.entities.length = i.entities.length ∧ i'.amount = i.amount
      ∧ i'.fitness = fitness i'.entities ∧ i'.generation = i.generation := by
  obtain ⟨i1, h1, hl, ha, _, hg⟩ :=
    mutateLoop_ok M cfg.mutationRate i.entities.length 0 i r (le_refl 0) (by simp)
  refine ⟨i1.RefreshFitness, ?_, hl, ha, rfl, hg⟩
  simp [individual.Mutate, h1, bind, Outcome.bind, pure]

theorem Mutate_inv {M : Float64Model} (cfg : Config M) (i i' : individual) (r r' : Rand)
    (h : i.Mutate cfg r = .ok (i', r')) :
    i'.entities.length = i.entities.length ∧ i'.amount = i.amount
      ∧ i'.fitness = fitness i'.entities ∧ i'.generation = i.generation := by
  obtain ⟨i1, h1, hrest⟩ := Mutate_ok cfg i r
  rw [h1] at h
  simp only [Outcome.ok.injEq, Prod.mk.injEq] at h
  rw [← h.1]
  exact hrest
/-! ## Selection, crossover, breeding -/

theorem Intn_ok (n : Int) (r r' : Rand) (k : Int) (h : Intn n r = .ok (k, r')) :
    0 < n ∧ 0 ≤ k ∧ k < n ∧ k = (r.peek : Int) % n ∧ r' = r.advance := by
  unfold Intn at h
  split at h
  · simp at h
  · rename_i hn
    have hpos : 0 < n := not_le.mp hn
    simp only [Outcome.ok.injEq, Prod.mk.injEq] at h
    rw [← h.1, ← h.2]
    exact ⟨hpos, Int.emod_nonneg _ (ne_of_gt hpos), Int.emod_lt_of_pos _ hpos, rfl, rfl⟩

theorem TwoIndividual_ok {M : Float64Model} (p : population M) (x y : Int)
    (a b : individual) (h : p.TwoIndividual x y = .ok (a, b)) :
    index p.individuals x = .ok a ∧ index p.individuals y = .ok b := by
  simp only [population.TwoIndividual, bind, pure] at h
  obtain ⟨a', ha, h1⟩ := Outcome.bind_eq_ok _ _ _ h
  obtain ⟨b', hb, h2⟩ := Outcome.bind_eq_ok _ _ _ h1
  simp only [Outcome.ok.injEq, Prod.mk.injEq] at h2
  rw [← h2.1, ← h2.2]
  exact ⟨ha, hb⟩

theorem ParentSelection_ok {M : Float64Model} (p : population M) (fuel : Nat) (r r' : Rand)
    (mother father : individual)
    (h : p.ParentSelection fuel r = .ok ((mother, father), r')) :
    mother ∈ p.individuals ∧ father ∈ p.individuals := by
  simp only [population.ParentSelection, bind, pure] at h
  obtain ⟨⟨m, r1⟩, _, h1⟩ := Outcome.bind_eq_ok _ _ _ h
  obtain ⟨⟨f, r2⟩, _, h2⟩ := Outcome.bind_eq_ok _ _ _ h1
  obtain ⟨⟨m1, r3⟩, _, h3⟩ := Outcome.bind_eq_ok _ _ _ h2
  obtain ⟨⟨a, b⟩, h4, h5⟩ := Outcome.bind_eq_ok _ _ _ h3
  simp only [Outcome.ok.injEq, Prod.mk.injEq] at h5
  obtain ⟨ha, hb⟩ := TwoIndividual_ok p m1 f a b h4
  rw [← h5.1.1, ← h5.1.2]
  exact ⟨index_ok_mem _ _ _ ha, index_ok_mem _ _ _ hb⟩

theorem sliceTo_ok (s : List Int) (k : Int) (t : List Int) (h : sliceTo s k = .ok t) :
    0 ≤ k ∧ k ≤ s.length ∧ t = s.take k.toNat := by
  unfold sliceTo at h
  split at h
  · rename_i hb
    simp only [Outcome.ok.injEq] at h
    exact ⟨hb.1, hb.2, h.symm⟩
  · simp at h

theorem crossoverAt_inv (k : Int) (x y c1 c2 : individual)
    (h : crossoverAt k x y = .ok (c1, c2)) :
    0 ≤ k ∧ k ≤ x.entities.length ∧ k ≤ y.entities.length
      ∧ c1.entities = x.entities.take k.toNat ++ y.entities.drop k.toNat
      ∧ c2.entities = y.entities.take k.toNat ++ x.entities.drop k.toNat
      ∧ c1.fitness = fitness c1.entities ∧ c2.fitness = fitness c2.entities
      ∧ c1.generation = 0 ∧ c2.generation = 0 := by
  have hb : 0 ≤ k ∧ k ≤ x.entities.length ∧ k ≤ y.entities.length := by
    simp only [crossoverAt, bind] at h
    obtain ⟨x0, hx0, h1⟩ := Outcome.bind_eq_ok _ _ _ h
    obtain ⟨y0, hy0, _⟩ := Outcome.bind_eq_ok _ _ _ h1
    exact ⟨(sliceTo_ok _ _ _ hx0).1, (sliceTo_ok _ _ _ hx0).2.1, (sliceTo_ok _ _ _ hy0).2.1⟩
  rw [crossoverAt_ok k x y hb.1 hb.2.1 hb.2.2] at h
  simp only [Outcome.ok.injEq, Prod.mk.injEq] at h
  rw [← h.1, ← h.2]
  exact ⟨hb.1, hb.2.1, hb.2.2, rfl, rfl, rfl, rfl, rfl, rfl⟩

theorem RandomOnePointCrossover_inv (x y c1 c2 : individual) (r r' : Rand)
    (h : RandomOnePointCrossover x y r = .ok ((c1, c2), r')) :
    ∃ k : Int, 0 ≤ k ∧ k < x.entities.length ∧ crossoverAt k x y = .ok (c1, c2)
      ∧ r' = r.advance := by
  simp only [RandomOnePointCrossover, bind, pure] at h
  obtain ⟨⟨k, r1⟩, hk, h1⟩ := Outcome.bind_eq_ok _ _ _ h
  obtain ⟨⟨a, b⟩, hc, h2⟩ := Outcome.bind_eq_ok _ _ _ h1
  simp only [Outcome.ok.injEq, Prod.mk.injEq] at h2
  obtain ⟨_, hk0, hk1, _, hr⟩ := Intn_ok _ _ _ _ hk
  refine ⟨k, hk0, hk1, ?_, ?_⟩
  · rw [← h2.1.1, ← h2.1.2]; exact hc
  · rw [← h2.2]; exact hr

theorem crossover_lengths (k : Int) (x y c1 c2 : individual)
    (h : crossoverAt k x y = .ok (c1, c2))
    (hlen : x.entities.length = y.entities.length) :
    c1.entities.length = x.entities.length ∧ c2.entities.length = x.entities.length := by
  obtain ⟨h0, hx, hy, e1, e2, _⟩ := crossoverAt_inv k x y c1 c2 h
  have hkn : k.toNat ≤ x.entities.length := by omega
  rw [e1, e2]
  refine ⟨take_append_drop_length _ _ _ hlen hkn, ?_⟩
  rw [take_append_drop_length _ _ _ hlen.symm (by omega)]
  exact hlen.symm

theorem breedOnce_inv {M : Float64Model} (cfg : Config M) (pfuel : Nat)
    (p p1 : population M) (r r' : Rand) (h : breedOnce cfg pfuel p r = .ok (p1, r')) :
    ∃ mother father chd1 chd2, mother ∈ p.individuals ∧ father ∈ p.individuals
      ∧ p1 = p.AppendIndividuals chd1 chd2
      ∧ chd1.fitness = fitness chd1.entities ∧ chd2.fitness = fitness chd2.entities
      ∧ (mother.entities.length = father.entities.length →
          chd1.entities.length = mother.entities.length
          ∧ chd2.entities.length = mother.entities.length) := by
  simp only [breedOnce, bind, pure] at h
  obtain ⟨⟨⟨mother, father⟩, r1⟩, hsel, h1⟩ := Outcome.bind_eq_ok _ _ _ h
  obtain ⟨⟨⟨c1, c2⟩, r2⟩, hx, h2⟩ := Outcome.bind_eq_ok _ _ _ h1
  obtain ⟨⟨m1, r3⟩, hm1, h3⟩ := Outcome.bind_eq_ok _ _ _ h2
  obtain ⟨⟨m2, r4⟩, hm2, h4⟩ := Outcome.bind_eq_ok _ _ _ h3
  simp only [Outcome.ok.injEq, Prod.mk.injEq] at h4
  obtain ⟨hmo, hfa⟩ := ParentSelection_ok p pfuel r r1 mother father hsel
  obtain ⟨k, _, _, hc, _⟩ := RandomOnePointCrossover_inv mother father c1 c2 r1 r2 hx
  obtain ⟨hl1, _, hf1, _⟩ := Mutate_inv cfg c1 m1 r2 r3 hm1
  obtain ⟨hl2, _, hf2, _⟩ := Mutate_inv cfg c2 m2 r3 r4 hm2
  refine ⟨mother, father, m1, m2, hmo, hfa, h4.1.symm, hf1, hf2, fun hlen => ?_⟩
  obtain ⟨e1, e2⟩ := crossover_lengths k mother father c1 c2 hc hlen
  exact ⟨by rw [hl1, e1], by rw [hl2, e2]⟩
/-! ## The breeding cycle -/

theorem breedLoop_inv {M : Float64Model} (cfg : Config M) (pfuel n : Nat)
    (p p1 : population M) (r r' : Rand) (h : breedLoop cfg pfuel n p r = .ok (p1, r')) :
    p1.maxIndividuals = p.maxIndividuals ∧ p1.maxFitness = p.maxFitness
    ∧ ∃ children, p1.individuals = p.individuals ++ children ∧ children.length = 2 * n
      ∧ (∀ c ∈ children, c.fitness = fitness c.entities)
      ∧ ∀ L : Int, (∀ i ∈ p.individuals, (i.entities.length : Int) = L) →
          ∀ c ∈ children, (c.entities.length : Int) = L := by
  induction n generalizing p r with
  | zero =>
    simp only [breedLoop, Outcome.ok.injEq, Prod.mk.injEq] at h
    rw [← h.1]
    exact ⟨rfl, rfl, [], by simp, rfl, by simp, by simp⟩
  | succ n ih =>
    simp only [breedLoop, bind] at h
    obtain ⟨⟨q, r1⟩, hq, hrest⟩ := Outcome.bind_eq_ok _ _ _ h
    obtain ⟨mother, father, c1, c2, hmo, hfa, hq', hf1, hf2, hlen⟩ :=
      breedOnce_inv cfg pfuel p q r r1 hq
    obtain ⟨hmi, hmf, children, hch, hcl, hcf, hcL⟩ := ih q r1 hrest
    have hqi : q.individuals = p.individuals ++ [c1, c2] := by
      rw [hq']; simp [population.AppendIndividuals]
    refine ⟨by rw [hmi, hq']; rfl, by rw [hmf, hq']; rfl, c1 :: c2 :: children, ?_, ?_, ?_, ?_⟩
    · rw [hch, hqi]; simp
    · simp only [List.length_cons, hcl]; omega
    · intro c hc
      simp only [List.mem_cons] at hc
      rcases hc with h | h | h
      · rw [h]; exact hf1
      · rw [h]; exact hf2
      · exact hcf c h
    · intro L hL c hc
      have hc12 := hlen (by have h1 := hL mother hmo; have h2 := hL father hfa; omega)
      have hqL : ∀ i ∈ q.individuals, (i.entities.length : Int) = L := by
        intro i hi
        rw [hqi] at hi
        simp only [List.mem_append, List.mem_cons, List.mem_singleton, List.not_mem_nil,
          or_false] at hi
        rcases hi with h | h | h
        · exact hL i h
        · rw [h, hc12.1]; exact hL mother hmo
        · rw [h, hc12.2]; exact hL mother hmo
      simp only [List.mem_cons] at hc
      rcases hc with h | h | h
      · rw [h, hc12.1]; exact hL mother hmo
      · rw [h, hc12.2]; exact hL mother hmo
      · exact hcL L hqL c h

theorem cycle_inv {M : Float64Model} (S : Sorter) (cfg : Config M) (pfuel : Nat)
    (s s1 : LoopState M) (h : cycle S cfg pfuel s = .ok s1) :
    ∃ p1 r1 p2 p3, breedLoop cfg pfuel cfg.childrenPerGeneration.toNat s.popul s.rng
        = .ok (p1, r1)
      ∧ p1.KillWeak S cfg = .ok p2
      ∧ p2.RefreshAvgFitness cfg = .ok p3
      ∧ s1 = ⟨(p3.RefreshFitness).RefreshGeneration s.gen,
              ((p3.RefreshFitness).RefreshGeneration s.gen).avgFitness, s.gen + 1, r1⟩ := by
  simp only [cycle, bind, pure] at h
  obtain ⟨⟨p1, r1⟩, h1, hrest1⟩ := Outcome.bind_eq_ok _ _ _ h
  obtain ⟨p2, h2, hrest2⟩ := Outcome.bind_eq_ok _ _ _ hrest1
  obtain ⟨p3, h3, hrest3⟩ := Outcome.bind_eq_ok _ _ _ hrest2
  simp only [Outcome.ok.injEq] at hrest3
  exact ⟨p1, r1, p2, p3, h1, h2, h3, hrest3.symm⟩

theorem cycle_individuals {M : Float64Model} (S : Sorter) (cfg : Config M) (pfuel : Nat)
    (s s1 : LoopState M) (h : cycle S cfg pfuel s = .ok s1) :
    ∃ p1 r1 p2, breedLoop cfg pfuel cfg.childrenPerGeneration.toNat s.popul s.rng
        = .ok (p1, r1)
      ∧ p1.KillWeak S cfg = .ok p2
      ∧ s1.popul.individuals = p2.individuals.map
          (fun i => ⟨i.entities, i.amount, fitness i.entities, s.gen⟩)
      ∧ s1.popul.maxIndividuals = s.popul.maxIndividuals
      ∧ s1.popul.maxFitness = s.popul.maxFitness
      ∧ s1.gen = s.gen + 1 ∧ s1.rng = r1 ∧ s1.fitness = s1.popul.avgFitness := by
  obtain ⟨p1, r1, p2, p3, h1, h2, h3, hs⟩ := cycle_inv S cfg pfuel s s1 h
  obtain ⟨e1, e2, e3⟩ := RefreshAvgFitness_ok_individuals cfg p2 p3 h3
  obtain ⟨_, _, _, k2, k3⟩ := KillWeak_ok S cfg p1 p2 h2
  obtain ⟨b1, b2, _⟩ := breedLoop_inv cfg pfuel _ s.popul p1 s.rng r1 h1
  refine ⟨p1, r1, p2, h1, h2, ?_, ?_, ?_, ?_, ?_, ?_⟩
  · rw [hs]
    simp [population.RefreshGeneration, population.RefreshFitness, e1, List.map_map,
      Function.comp_def]
  · rw [hs]
    simp [population.RefreshGeneration, population.RefreshFitness, e2, k2, b1]
  · rw [hs]
    simp [population.RefreshGeneration, population.RefreshFitness, e3, k3, b2]
  · rw [hs]
  · rw [hs]
  · rw [hs]

theorem start_inv {M : Float64Model} (cfg : Config M) (r : Rand) (s0 : LoopState M)
    (h : start cfg r = .ok s0) :
    s0.popul.individuals.length = cfg.amountOfIndividuals.toNat
    ∧ (∀ i ∈ s0.popul.individuals, FreshIndividual cfg.amountOfEntities i)
    ∧ s0.popul.maxIndividuals = cfg.amountOfIndividuals
    ∧ s0.popul.maxFitness = cfg.amountOfEntities
    ∧ s0.gen = 0 ∧ s0.fitness = s0.popul.avgFitness := by
  simp only [start, bind, pure] at h
  obtain ⟨⟨p1, r1⟩, h1, hrest1⟩ := Outcome.bind_eq_ok _ _ _ h
  obtain ⟨p3, h3, hrest3⟩ := Outcome.bind_eq_ok _ _ _ hrest1
  simp only [Outcome.ok.injEq] at hrest3
  obtain ⟨i1, i2, _, fresh, hf, hfl, hfa⟩ := Initialize_inv _ p1 _ _ r r1 h1
  obtain ⟨e1, e2, e3⟩ := RefreshAvgFitness_ok_individuals cfg _ p3 h3
  have hfresh : p1.individuals = fresh := by rw [hf]; simp [population.zero]
  have hmap : p3.individuals = fresh := by
    rw [e1, population.RefreshFitness, hfresh]
    simp only
    conv_rhs => rw [← List.map_id fresh]
    apply List.map_congr_left
    intro i hi
    have := (hfa i hi).2.2.2.1
    simp only [id]
    rw [← this]
  rw [← hrest3]
  refine ⟨by simp only [hmap, hfl], ?_, ?_, ?_, rfl, rfl⟩
  · intro i hi
    simp only [hmap] at hi
    exact hfa i hi
  · simp only [e2]; exact i1
  · simp only [e3]; exact i2

/-! ## Invariants of the evolution loop -/

theorem afterCycles_induction {M : Float64Model} (S : Sorter) (cfg : Config M) (pfuel : Nat)
    (I : LoopState M → Prop)
    (hstep : ∀ s s1, I s → cycle S cfg pfuel s = .ok s1 → I s1)
    (k : Nat) (s0 s : LoopState M) (h0 : I s0)
    (hk : afterCycles S cfg pfuel k s0 = .ok s) : I s := by
  induction k generalizing s0 with
  | zero =>
    simp only [afterCycles, Outcome.ok.injEq] at hk
    rw [← hk]; exact h0
  | succ k ih =>
    simp only [afterCycles, bind] at hk
    obtain ⟨s1, h1, hrest⟩ := Outcome.bind_eq_ok _ _ _ hk
    exact ih s1 (hstep s0 s1 h0 h1) hrest

theorem evolve_ok_afterCycles {M : Float64Model} (S : Sorter) (cfg : Config M)
    (pfuel fuel : Nat) (s0 s : LoopState M) (n : Nat)
    (h : evolve S cfg pfuel fuel s0 = (n, .ok s)) :
    afterCycles S cfg pfuel n s0 = .ok s := by
  induction fuel generalizing s0 n with
  | zero => simp [evolve] at h
  | succ fuel ih =>
    unfold evolve at h
    split at h
    · split at h
      · simp only [Prod.mk.injEq, Outcome.ok.injEq] at h
        rw [← h.1, ← h.2]; rfl
      · split at h
        · rename_i s1 hc
          simp only [Prod.mk.injEq] at h
          have hrec := ih s1 (evolve S cfg pfuel fuel s1).1 (by rw [← h.2])
          rw [← h.1]
          simp only [afterCycles, bind, Outcome.bind, hc]
          exact hrec
        · simp at h
        · simp at h
        · simp at h
    · simp only [Prod.mk.injEq, Outcome.ok.injEq] at h
      rw [← h.1, ← h.2]; rfl

theorem cycle_size {M : Float64Model} (S : Sorter) (cfg : Config M) (pfuel : Nat)
    (s s1 : LoopState M) (h : cycle S cfg pfuel s = .ok s1) :
    (s1.popul.individuals.length : Int) = cfg.amountOfIndividuals := by
  obtain ⟨p1, r1, p2, _, h2, hi, _⟩ := cycle_individuals S cfg pfuel s s1 h
  rw [hi, List.length_map]
  exact KillWeak_ok_length S cfg p1 p2 h2

/-- Claim C5.  With N = amountOfIndividuals >= 2 and c = childrenPerGeneration
>= 0, for every random source: after the start-up and any number k of completed
breeding cycles the population holds N individuals; when the breeding of the
next cycle completes the population holds N + 2c individuals, KillWeak does not
fail on it, and when KillWeak returns it leaves N individuals; and the state
in which the loop of main ends holds N individuals. -/
theorem C5_population_size {M : Float64Model} (S : Sorter) (cfg : Config M) (pfuel : Nat)
    (r : Rand) (s0 : LoopState M)
    (hN : 2 ≤ cfg.amountOfIndividuals) (hc : 0 ≤ cfg.childrenPerGeneration)
    (hstart : start cfg r = .ok s0) :
    (∀ k s, afterCycles S cfg pfuel k s0 = .ok s →
      (s.popul.individuals.length : Int) = cfg.amountOfIndividuals
      ∧ ∀ p1 r1, breedLoop cfg pfuel cfg.childrenPerGeneration.toNat s.popul s.rng
            = .ok (p1, r1) →
          (p1.individuals.length : Int)
            = cfg.amountOfIndividuals + 2 * cfg.childrenPerGeneration
          ∧ p1.KillWeak S cfg ≠ .panic ∧ p1.KillWeak S cfg ≠ .hang
          ∧ ∀ p2, p1.KillWeak S cfg = .ok p2 →
              (p2.individuals.length : Int) = cfg.amountOfIndividuals)
    ∧ ∀ fuel n s, evolve S cfg pfuel fuel s0 = (n, .ok s) →
        (s.popul.individuals.length : Int) = cfg.amountOfIndividuals := by
  have hbase : (s0.popul.individuals.length : Int) = cfg.amountOfIndividuals := by
    rw [(start_inv cfg r s0 hstart).1]; omega
  have hall : ∀ k s, afterCycles S cfg pfuel k s0 = .ok s →
      (s.popul.individuals.length : Int) = cfg.amountOfIndividuals := fun k s hk =>
    afterCycles_induction S cfg pfuel
      (fun s => (s.popul.individuals.length : Int) = cfg.amountOfIndividuals)
      (fun s s1 _ h => cycle_size S cfg pfuel s s1 h) k s0 s hbase hk
  refine ⟨fun k s hk => ⟨hall k s hk, fun p1 r1 hb => ?_⟩,
    fun fuel n s h => hall n s (evolve_ok_afterCycles S cfg pfuel fuel s0 s n h)⟩
  obtain ⟨_, _, children, hch, hcl, _⟩ := breedLoop_inv cfg pfuel _ s.popul p1 s.rng r1 hb
  have hs := hall k s hk
  have hp1 : (p1.individuals.length : Int)
      = cfg.amountOfIndividuals + 2 * cfg.childrenPerGeneration := by
    rw [hch, List.length_append, hcl]; push_cast; omega
  have hnp := KillWeak_ne_panic S cfg p1 (by omega) (by omega)
  exact ⟨hp1, hnp.1, hnp.2, fun p2 h2 => KillWeak_ok_length S cfg p1 p2 h2⟩

/-- Claim C6.  Every individual that Initialize creates, both children that
RandomOnePointCrossover returns, and the individual that Mutate returns (which
it does for every mutation rate and every random source) carry a cached fitness
equal to fitness(entities); and after the start-up and any number of completed
breeding cycles every individual of the population does. -/
theorem C6_fitness_consistency {M : Float64Model} (S : Sorter) (cfg : Config M)
    (pfuel : Nat) :
    (∀ (p0 p1 : population M) (amount length : Int) (r r' : Rand),
      p0.Initialize amount length r = .ok (p1, r') →
      ∃ fresh, p1.individuals = p0.individuals ++ fresh
        ∧ ∀ i ∈ fresh, i.fitness = fitness i.entities)
    ∧ (∀ (x y c1 c2 : individual) (r r' : Rand),
      RandomOnePointCrossover x y r = .ok ((c1, c2), r') →
      c1.fitness = fitness c1.entities ∧ c2.fitness = fitness c2.entities)
    ∧ (∀ (i : individual) (r : Rand), ∃ i' r',
      i.Mutate cfg r = .ok (i', r') ∧ i'.fitness = fitness i'.entities)
    ∧ (∀ (r : Rand) (s0 s : LoopState M) (k : Nat),
      start cfg r = .ok s0 → afterCycles S cfg pfuel k s0 = .ok s →
      ∀ i ∈ s.popul.individuals, i.fitness = fitness i.entities) := by
  refine ⟨?_, ?_, ?_, ?_⟩
  · intro p0 p1 amount length r r' h
    obtain ⟨_, _, _, fresh, hf, _, hfa⟩ := Initialize_inv p0 p1 amount length r r' h
    exact ⟨fresh, hf, fun i hi => (hfa i hi).2.2.2.1⟩
  · intro x y c1 c2 r r' h
    obtain ⟨k, _, _, hc, _⟩ := RandomOnePointCrossover_inv x y c1 c2 r r' h
    obtain ⟨_, _, _, _, _, h1, h2, _⟩ := crossoverAt_inv k x y c1 c2 hc
    exact ⟨h1, h2⟩
  · intro i r
    obtain ⟨i', h, _, _, hf, _⟩ := Mutate_ok cfg i r
    exact ⟨i', _, h, hf⟩
  · intro r s0 s k hstart hk
    refine afterCycles_induction S cfg pfuel
      (fun s => ∀ i ∈ s.popul.individuals, i.fitness = fitness i.entities)
      ?_ k s0 s (fun i hi => ((start_inv cfg r s0 hstart).2.1 i hi).2.2.2.1) hk
    intro s s1 _ h i hi
    obtain ⟨p1, r1, p2, _, _, hmap, _⟩ := cycle_individuals S cfg pfuel s s1 h
    rw [hmap] at hi
    obtain ⟨j, _, hj⟩ := List.mem_map.mp hi
    rw [← hj]

/-- Claim C7.  After Initialize(N, L) on the empty population and any number of
completed breeding cycles, for every random source, every individual of the
population has a genome of exactly L = amountOfEntities genes; so has every
individual of the state in which the loop of main ends. -/
theorem C7_length_invariant {M : Float64Model} (S : Sorter) (cfg : Config M) (pfuel : Nat)
    (r : Rand) (s0 : LoopState M) (hstart : start cfg r = .ok s0) :
    (∀ k s, afterCycles S cfg pfuel k s0 = .ok s →
      ∀ i ∈ s.popul.individuals, (i.entities.length : Int) = cfg.amountOfEntities)
    ∧ ∀ fuel n s, evolve S cfg pfuel fuel s0 = (n, .ok s) →
      ∀ i ∈ s.popul.individuals, (i.entities.length : Int) = cfg.amountOfEntities := by
  have hall : ∀ k s, afterCycles S cfg pfuel k s0 = .ok s →
      ∀ i ∈ s.popul.individuals, (i.entities.length : Int) = cfg.amountOfEntities := by
    intro k s hk
    refine afterCycles_induction S cfg pfuel
      (fun s => ∀ i ∈ s.popul.individuals, (i.entities.length : Int) = cfg.amountOfEntities)
      ?_ k s0 s (fun i hi => ((start_inv cfg r s0 hstart).2.1 i hi).1) hk
    intro s s1 hs h i hi
    obtain ⟨p1, r1, p2, hb, hkw, hmap, _⟩ := cycle_individuals S cfg pfuel s s1 h
    obtain ⟨_, _, children, hch, _, _, hcL⟩ := breedLoop_inv cfg pfuel _ s.popul p1 s.rng r1 hb
    rw [hmap] at hi
    obtain ⟨j, hj, hji⟩ := List.mem_map.mp hi
    have hj1 : j ∈ p1.individuals := KillWeak_ok_subset S cfg p1 p2 hkw j hj
    have hlen : (j.entities.length : Int) = cfg.amountOfEntities := by
      rw [hch] at hj1
      rcases List.mem_append.mp hj1 with h | h
      · exact hs j h
      · exact hcL cfg.amountOfEntities hs j h
    rw [← hji]
    exact hlen
  exact ⟨hall, fun fuel n s h => hall n s (evolve_ok_afterCycles S cfg pfuel fuel s0 s n h)⟩

/-- The statement of C5 on the sample run: two individuals at the start and two
after one breeding cycle. -/
theorem C5_population_size_witness :
    start sampleConfig sampleRand = .ok sampleStart
    ∧ afterCycles insertionSorter sampleConfig 5 1 sampleStart = .ok sampleAfterOne
    ∧ (sampleAfterOne.popul.individuals.length : Int) = sampleConfig.amountOfIndividuals :=
  ⟨rfl, rfl, ((C5_population_size insertionSorter sampleConfig 5 sampleRand sampleStart
    (by decide) (by decide) rfl).1 1 sampleAfterOne rfl).1⟩

/-- The statement of C6 on the sample run: after one breeding cycle every cached
fitness is the fitness of the genome. -/
theorem C6_fitness_consistency_witness :
    start sampleConfig sampleRand = .ok sampleStart
    ∧ afterCycles insertionSorter sampleConfig 5 1 sampleStart = .ok sampleAfterOne
    ∧ ∀ i ∈ sampleAfterOne.popul.individuals, i.fitness = fitness i.entities :=
  ⟨rfl, rfl, (C6_fitness_consistency insertionSorter sampleConfig 5).2.2.2
    sampleRand sampleStart sampleAfterOne 1 rfl rfl⟩

/-- The statement of C7 on the sample run: after one breeding cycle every genome
has two genes. -/
theorem C7_length_invariant_witness :
    start sampleConfig sampleRand = .ok sampleStart
    ∧ afterCycles insertionSorter sampleConfig 5 1 sampleStart = .ok sampleAfterOne
    ∧ ∀ i ∈ sampleAfterOne.popul.individuals,
        (i.entities.length : Int) = sampleConfig.amountOfEntities :=
  ⟨rfl, rfl, (C7_length_invariant insertionSorter sampleConfig 5 sampleRand sampleStart rfl).1
    1 sampleAfterOne rfl⟩

/-! ## Mutation at the boundary rates -/

theorem mutateLoop_rate_zero (M : Float64Model) (n : Nat) (j : Int) (i : individual)
    (r : Rand) :
    mutateLoop M (M.ofInt 0) n j i r = .ok (i, ⟨r.draws, r.pos + n⟩) := by
  induction n generalizing j r with
  | zero => rfl
  | succ n ih =>
    have h := ih (j + 1) r.advance
    simp only [Rand.advance] at h
    simp only [mutateLoop, M.unit_not_lt_zero, Bool.false_eq_true, if_false, Rand.advance, h]
    rw [show r.pos + 1 + n = r.pos + (n + 1) by omega]

theorem mutateLoop_rate_one (M : Float64Model) (suf pre : List Int) (i : individual)
    (r : Rand) (hi : i.entities = pre ++ suf) :
    mutateLoop M (M.ofInt 1) suf.length pre.length i r
      = .ok ({ i with entities := pre ++ suf.map (fun g => if g = 0 then 1 else 0) },
             ⟨r.draws, r.pos + suf.length⟩) := by
  induction suf generalizing pre i r with
  | nil =>
    simp only [List.length_nil, mutateLoop, List.map_nil, Nat.add_zero]
    rw [← hi]
  | cons g gs ih =>
    have hlt : (pre.length : Int) < i.entities.length := by
      rw [hi]; simp only [List.length_append, List.length_cons]; push_cast; omega
    obtain ⟨oldval, hold, hflip⟩ :=
      FlipTheBit_of_lt i pre.length (Int.natCast_nonneg _) hlt
    have hnat : (pre.length : Int).toNat = pre.length := Int.toNat_natCast _
    have hg : oldval = g := by
      rw [hi, hnat, List.getElem?_append_right (le_refl _)] at hold
      simpa using hold.symm
    have hset : i.entities.set (pre.length : Int).toNat (if oldval = 0 then 1 else 0)
        = (pre ++ [if g = 0 then 1 else 0]) ++ gs := by
      rw [hi, hg, hnat]; simp
    have hrec := ih (pre ++ [if g = 0 then 1 else 0])
      ⟨i.entities.set (pre.length : Int).toNat (if oldval = 0 then 1 else 0),
        i.amount, i.fitness, i.generation⟩ r.advance hset
    simp only [List.length_append, List.length_singleton, Nat.cast_add, Nat.cast_one,
      Rand.advance] at hrec
    simp only [List.length_cons, mutateLoop, M.unit_lt_one, if_true, bind, Outcome.bind, hflip,
      Rand.advance, hrec, List.map_cons, List.append_assoc, List.singleton_append]
    rw [show r.pos + 1 + gs.length = r.pos + (gs.length + 1) by omega]

/-- Claim C8.  For every individual and every random source, Mutate returns;
with mutationRate = 0.0 the genome it returns is the genome it was given; with
mutationRate = 1.0 every gene is rewritten once, to 1 where it was 0 and to 0
elsewhere, which on a genome of 0s and 1s is the complement 1 - g of each
gene. -/
theorem C8_mutation_rate_boundary {M : Float64Model} (cfg : Config M) (i : individual)
    (r : Rand) :
    (cfg.mutationRate = M.ofInt 0 →
      ∃ i' r', i.Mutate cfg r = .ok (i', r') ∧ i'.entities = i.entities)
    ∧ (cfg.mutationRate = M.ofInt 1 →
      ∃ i' r', i.Mutate cfg r = .ok (i', r')
        ∧ i'.entities = i.entities.map (fun g => if g = 0 then 1 else 0)
        ∧ ((∀ g ∈ i.entities, g = 0 ∨ g = 1) →
            i'.entities = i.entities.map (fun g => 1 - g))) := by
  constructor
  · intro h0
    refine ⟨i.RefreshFitness, ⟨r.draws, r.pos + i.entities.length⟩, ?_, rfl⟩
    simp only [individual.Mutate, h0, mutateLoop_rate_zero, bind, Outcome.bind, pure]
  · intro h1
    have hloop := mutateLoop_rate_one M i.entities [] i r (by simp)
    simp only [List.length_nil, Nat.cast_zero, List.nil_append] at hloop
    refine ⟨individual.RefreshFitness
        ⟨i.entities.map (fun g => if g = 0 then 1 else 0), i.amount, i.fitness, i.generation⟩,
      ⟨r.draws, r.pos + i.entities.length⟩, ?_, rfl, ?_⟩
    · simp only [individual.Mutate, h1, hloop, bind, Outcome.bind, pure]
    · intro hbin
      simp only [individual.RefreshFitness]
      apply List.map_congr_left
      intro g hg
      rcases hbin g hg with h | h <;> simp [h]

/-- The statement of C8 at the genome [1, 0, 1] with the sample random source:
rate 0 returns [1, 0, 1] and rate 1 returns [0, 1, 0]. -/
theorem C8_mutation_rate_boundary_witness :
    (∃ i' r', individual.Mutate sampleConfig ⟨[1, 0, 1], 3, 2, 0⟩ sampleRand = .ok (i', r')
      ∧ i'.entities = [1, 0, 1])
    ∧ (∃ i' r', individual.Mutate sampleConfigRateOne ⟨[1, 0, 1], 3, 2, 0⟩ sampleRand
        = .ok (i', r')
      ∧ i'.entities = [0, 1, 0]) := by
  refine ⟨(C8_mutation_rate_boundary sampleConfig ⟨[1, 0, 1], 3, 2, 0⟩ sampleRand).1 rfl, ?_⟩
  obtain ⟨i', r', h, _, hb⟩ :=
    (C8_mutation_rate_boundary sampleConfigRateOne ⟨[1, 0, 1], 3, 2, 0⟩ sampleRand).2 rfl
  exact ⟨i', r', h, by rw [hb (by decide)]; rfl⟩

/-! ## The average fitness and the early exit -/

theorem avgLoop_exit (M : Float64Model) (maxFitness : Int) (pre post : List individual)
    (w : individual) (acc : M.F)
    (hpre : ∀ i ∈ pre, fitness i.entities ≠ maxFitness)
    (hw : fitness w.entities = maxFitness) :
    avgLoop M true maxFitness (pre ++ w :: post) acc = .exit w := by
  induction pre generalizing acc with
  | nil => simp [avgLoop, hw]
  | cons i rest ih =>
    have hi : fitness i.entities ≠ maxFitness := hpre i (List.mem_cons_self _ _)
    simp only [List.cons_append, avgLoop, Bool.true_and, decide_eq_true_eq, hi, if_false]
    exact ih _ (fun j hj => hpre j (List.mem_cons_of_mem _ hj))

theorem avgLoop_ok (M : Float64Model) (stop : Bool) (maxFitness : Int)
    (l : List individual) (acc : M.F)
    (h : stop = false ∨ ∀ i ∈ l, fitness i.entities ≠ maxFitness) :
    avgLoop M stop maxFitness l acc
      = .ok ((l.map (fun i => fitness i.entities)).foldl
          (fun a v => M.add a (M.ofInt v)) acc) := by
  induction l generalizing acc with
  | nil => rfl
  | cons i rest ih =>
    have hc : (stop && decide (fitness i.entities = maxFitness)) = false := by
      rcases h with h | h
      · simp [h]
      · simp [h i (List.mem_cons_self _ _)]
    simp only [avgLoop, hc, Bool.false_eq_true, if_false, List.map_cons, List.foldl_cons]
    exact ih _ (h.imp id (fun h j hj => h j (List.mem_cons_of_mem _ hj)))

theorem foldl_add_exact (M : Float64Model) (B : Int)
    (hexact : ∀ a b : Int, 0 ≤ a → 0 ≤ b → a + b ≤ B →
      M.add (M.ofInt a) (M.ofInt b) = M.ofInt (a + b))
    (vals : List Int) (a : Int) (ha : 0 ≤ a) (hvals : ∀ v ∈ vals, 0 ≤ v)
    (hB : a + vals.sum ≤ B) :
    vals.foldl (fun x v => M.add x (M.ofInt v)) (M.ofInt a) = M.ofInt (a + vals.sum) := by
  induction vals generalizing a with
  | nil => simp
  | cons v vs ih =>
    have hv : 0 ≤ v := hvals v (List.mem_cons_self _ _)
    have hvs : ∀ x ∈ vs, 0 ≤ x := fun x hx => hvals x (List.mem_cons_of_mem _ hx)
    have hsum : 0 ≤ vs.sum := List.sum_nonneg hvs
    rw [List.sum_cons] at hB
    rw [List.foldl_cons, hexact a v ha hv (by omega), ih (a + v) (by omega) hvs (by omega),
      List.sum_cons, add_assoc]

theorem RefreshFitness_of_consistent {M : Float64Model} (p : population M)
    (h : ∀ i ∈ p.individuals, i.fitness = fitness i.entities) :
    p.RefreshFitness = p := by
  have hmap : p.individuals.map (fun i => ({ i with fitness := fitness i.entities } : individual))
      = p.individuals := by
    conv_rhs => rw [← List.map_id p.individuals]
    apply List.map_congr_left
    intro i hi
    simp only [id]
    rw [← h i hi]
  simp only [population.RefreshFitness, hmap]

/-- Claim C9.  RefreshAvgFitness with the exit made a result.  (1) When
stopAtFirstPerfect is set and the individuals are pre ++ w :: post with no
individual of pre of recomputed fitness maxFitness and w of recomputed fitness
maxFitness, the call ends in the exit that reports w, and no population with a
new average is returned.  (2) When stopAtFirstPerfect is off or no individual
has recomputed fitness maxFitness, the call returns the population with
avgFitness set to the floating-point sum of fitness(entities) over the
individuals divided by their number, and nothing else changed.  (3) When
float64 addition is exact on non-negative integers up to a bound B that the
sum of the fitness values does not exceed, that sum is the conversion of the
integer sum.  (4) When the population that Initialize builds in main holds
such a w and the stop is set, main ends in the exit reporting w after zero
breeding cycles. -/
theorem C9_refreshAvgFitness {M : Float64Model} (cfg : Config M) (p : population M) :
    (∀ (pre post : List individual) (w : individual),
      cfg.stopAtFirstPerfect = true → p.individuals = pre ++ w :: post →
      (∀ i ∈ pre, fitness i.entities ≠ p.maxFitness) → fitness w.entities = p.maxFitness →
      p.RefreshAvgFitness cfg = .exit w)
    ∧ ((cfg.stopAtFirstPerfect = false ∨ ∀ i ∈ p.individuals, fitness i.entities ≠ p.maxFitness) →
      p.RefreshAvgFitness cfg = .ok ⟨p.individuals, p.maxIndividuals, p.maxFitness,
        M.div (floatSum M (p.individuals.map (fun i => fitness i.entities)))
          (M.ofInt p.individuals.length)⟩)
    ∧ (∀ B : Int,
      (∀ a b : Int, 0 ≤ a → 0 ≤ b → a + b ≤ B →
        M.add (M.ofInt a) (M.ofInt b) = M.ofInt (a + b)) →
      (p.individuals.map (fun i => fitness i.entities)).sum ≤ B →
      floatSum M (p.individuals.map (fun i => fitness i.entities))
        = M.ofInt ((p.individuals.map (fun i => fitness i.entities)).sum))
    ∧ (∀ (S : Sorter) (pfuel fuel : Nat) (r r1 : Rand) (p1 : population M)
        (pre post : List individual) (w : individual),
      cfg.stopAtFirstPerfect = true →
      (population.zero M).Initialize cfg.amountOfIndividuals cfg.amountOfEntities r
        = .ok (p1, r1) →
      p1.individuals = pre ++ w :: post →
      (∀ i ∈ pre, fitness i.entities ≠ cfg.amountOfEntities) →
      fitness w.entities = cfg.amountOfEntities →
      main S cfg pfuel fuel r = (0, .exit w)) := by
  refine ⟨?_, ?_, ?_, ?_⟩
  · intro pre post w hstop hp hpre hw
    simp only [population.RefreshAvgFitness, hstop, hp, avgLoop_exit M _ pre post w _ hpre hw,
      bind, Outcome.bind]
  · intro h
    simp only [population.RefreshAvgFitness, avgLoop_ok M _ _ _ _ h, bind, Outcome.bind, pure,
      floatSum]
  · intro B hexact hB
    have h := foldl_add_exact M B hexact (p.individuals.map (fun i => fitness i.entities)) 0
      (le_refl 0) (by
        intro v hv
        obtain ⟨i, _, hi⟩ := List.mem_map.mp hv
        rw [← hi]; exact fitness_nonneg _) (by omega)
    rw [floatSum, h, zero_add]
  · intro S pfuel fuel r r1 p1 pre post w hstop hinit hp hpre hw
    obtain ⟨_, hmf, _, fresh, hf, _, hfa⟩ := Initialize_inv _ p1 _ _ r r1 hinit
    have hcons : ∀ i ∈ p1.individuals, i.fitness = fitness i.entities := by
      intro i hi
      rw [hf] at hi
      simp only [population.zero, List.nil_append] at hi
      exact (hfa i hi).2.2.2.1
    have hexit : p1.RefreshAvgFitness cfg = .exit w := by
      simp only [population.RefreshAvgFitness, hstop, hp, hmf,
        avgLoop_exit M _ pre post w _ hpre hw, bind, Outcome.bind]
    simp only [main, start, bind, Outcome.bind, hinit, RefreshFitness_of_consistent p1 hcons,
      hexit]

/-- The scenario of C9: N = 4, L = 4, stop enabled, and an initial population
that holds [1,1,1,1] behind [0,0,1,0]; main ends at once in the exit that reports
[1,1,1,1], with no breeding cycle. -/
theorem C9_refreshAvgFitness_witness :
    main insertionSorter scenarioConfig 5 20 scenarioRand
      = (0, .exit ⟨[1, 1, 1, 1], 4, 4, 0⟩) :=
  (C9_refreshAvgFitness scenarioConfig (population.zero exactFloat)).2.2.2
    insertionSorter 5 20 scenarioRand ⟨scenarioRand.draws, 16⟩
    ⟨[⟨[0, 0, 1, 0], 4, 1, 0⟩, ⟨[1, 1, 1, 1], 4, 4, 0⟩, ⟨[0, 1, 0, 0], 4, 1, 0⟩,
      ⟨[0, 0, 0, 0], 4, 0, 0⟩], 4, 4, (0, 1)⟩
    [⟨[0, 0, 1, 0], 4, 1, 0⟩] [⟨[0, 1, 0, 0], 4, 1, 0⟩, ⟨[0, 0, 0, 0], 4, 0, 0⟩]
    ⟨[1, 1, 1, 1], 4, 4, 0⟩ rfl rfl rfl (by decide) (by decide)

/-! ## Termination of the evolution loop -/

theorem cycle_gen {M : Float64Model} (S : Sorter) (cfg : Config M) (pfuel : Nat)
    (s s1 : LoopState M) (h : cycle S cfg pfuel s = .ok s1) : s1.gen = s.gen + 1 := by
  obtain ⟨_, _, _, _, _, _, _, _, hg, _⟩ := cycle_individuals S cfg pfuel s s1 h
  exact hg

theorem evolve_count_le {M : Float64Model} (S : Sorter) (cfg : Config M) (pfuel fuel : Nat)
    (s : LoopState M) :
    (evolve S cfg pfuel fuel s).1 ≤ (cfg.maxGenerations + 1 - s.gen).toNat := by
  induction fuel generalizing s with
  | zero => simp [evolve]
  | succ fuel ih =>
    unfold evolve
    split
    · split
      · simp
      · rename_i hgen
        split
        · rename_i s1 hc
          have h1 := ih s1
          rw [cycle_gen S cfg pfuel s s1 hc] at h1
          simp only
          omega
        · simp only; omega
        · simp only; omega
        · simp only; omega
    · simp

theorem evolve_fuel_enough {M : Float64Model} (S : Sorter) (cfg : Config M) (pfuel fuel : Nat)
    (s : LoopState M) (hfuel : (cfg.maxGenerations + 1 - s.gen).toNat + 1 ≤ fuel) :
    evolve S cfg pfuel fuel s
      = evolve S cfg pfuel ((cfg.maxGenerations + 1 - s.gen).toNat + 1) s := by
  induction fuel generalizing s with
  | zero => omega
  | succ fuel ih =>
    unfold evolve
    split
    · split
      · rfl
      · rename_i hgen
        split
        · rename_i s1 hc
          have hg := cycle_gen S cfg pfuel s s1 hc
          have hm : (cfg.maxGenerations + 1 - s.gen).toNat
              = (cfg.maxGenerations + 1 - s1.gen).toNat + 1 := by omega
          have h1 := ih s1 (by omega)
          rw [h1, hm]
        · rfl
        · rfl
        · rfl
    · rfl

theorem evolve_stop {M : Float64Model} (S : Sorter) (cfg : Config M) (pfuel fuel : Nat)
    (s : LoopState M)
    (h : M.le cfg.desiredFitness s.fitness = true ∨ cfg.maxGenerations < s.gen) :
    evolve S cfg pfuel (fuel + 1) s = (0, .ok s) := by
  unfold evolve
  rcases h with h | h
  · rw [M.lt_false_of_le _ _ h]; simp
  · by_cases hlt : M.lt s.fitness cfg.desiredFitness = true
    · rw [if_pos hlt, if_pos h]
    · rw [if_neg hlt]

theorem evolve_cycle_guard {M : Float64Model} (S : Sorter) (cfg : Config M)
    (pfuel fuel : Nat) (s : LoopState M) (h : 1 ≤ (evolve S cfg pfuel fuel s).1) :
    M.lt s.fitness cfg.desiredFitness = true ∧ s.gen ≤ cfg.maxGenerations := by
  cases fuel with
  | zero => simp [evolve] at h
  | succ fuel =>
    unfold evolve at h
    split at h
    · rename_i hlt
      split at h
      · simp at h
      · rename_i hgen
        exact ⟨hlt, not_lt.mp hgen⟩
    · simp at h

theorem main_eq_evolve {M : Float64Model} (S : Sorter) (cfg : Config M) (pfuel fuel : Nat)
    (r : Rand) (s0 : LoopState M) (h : start cfg r = .ok s0) :
    main S cfg pfuel fuel r = evolve S cfg pfuel fuel s0 := by
  simp only [main, h]

/-- Claim C10.  With maxGenerations >= 0, for every random source: (1) main
begins at most maxGenerations + 1 breeding cycles; (2) the loop ends on its own:
any fuel of at least maxGenerations + 2 iterations gives the result of
maxGenerations + 2; (3) when the average fitness after the start-up is already
>= desiredFitness, main ends with no breeding cycle; (4) a breeding cycle is
begun from a loop state only if its cached average is < desiredFitness and its
counter gen is <= maxGenerations; (5) the loop stops in a state whose average is
>= desiredFitness or whose counter exceeds maxGenerations; (6) the variable
fitness that the loop tests is the cached average of the population. -/
theorem C10_loop_termination {M : Float64Model} (S : Sorter) (cfg : Config M) (pfuel : Nat)
    (hmax : 0 ≤ cfg.maxGenerations) :
    (∀ (r : Rand) (fuel : Nat),
      ((main S cfg pfuel fuel r).1 : Int) ≤ cfg.maxGenerations + 1)
    ∧ (∀ (r : Rand) (fuel : Nat), cfg.maxGenerations + 2 ≤ fuel →
      main S cfg pfuel fuel r = main S cfg pfuel (cfg.maxGenerations + 2).toNat r)
    ∧ (∀ (r : Rand) (s0 : LoopState M) (fuel : Nat), start cfg r = .ok s0 →
      M.le cfg.desiredFitness s0.popul.avgFitness = true →
      main S cfg pfuel (fuel + 1) r = (0, .ok s0))
    ∧ (∀ (fuel : Nat) (s : LoopState M), 1 ≤ (evolve S cfg pfuel fuel s).1 →
      M.lt s.fitness cfg.desiredFitness = true ∧ s.gen ≤ cfg.maxGenerations)
    ∧ (∀ (fuel : Nat) (s : LoopState M),
      M.le cfg.desiredFitness s.fitness = true ∨ cfg.maxGenerations < s.gen →
      evolve S cfg pfuel (fuel + 1) s = (0, .ok s))
    ∧ (∀ (r : Rand) (s0 s : LoopState M) (k : Nat), start cfg r = .ok s0 →
      afterCycles S cfg pfuel k s0 = .ok s → s.fitness = s.popul.avgFitness) := by
  refine ⟨?_, ?_, ?_, evolve_cycle_guard S cfg pfuel, fun fuel s => evolve_stop S cfg pfuel fuel s,
    ?_⟩
  · intro r fuel
    cases hs : start cfg r with
    | ok s0 =>
      rw [main_eq_evolve S cfg pfuel fuel r s0 hs]
      have h := evolve_count_le S cfg pfuel fuel s0
      rw [(start_inv cfg r s0 hs).2.2.2.2.1] at h
      omega
    | panic => simp only [main, hs]; push_cast; omega
    | exit w => simp only [main, hs]; push_cast; omega
    | hang => simp only [main, hs]; push_cast; omega
  · intro r fuel hfuel
    cases hs : start cfg r with
    | ok s0 =>
      rw [main_eq_evolve S cfg pfuel fuel r s0 hs, main_eq_evolve S cfg pfuel _ r s0 hs]
      have hg := (start_inv cfg r s0 hs).2.2.2.2.1
      have h := evolve_fuel_enough S cfg pfuel fuel s0 (by rw [hg]; omega)
      rw [h, hg]
      congr 1
      omega
    | panic => simp only [main, hs]
    | exit w => simp only [main, hs]
    | hang => simp only [main, hs]
  · intro r s0 fuel hs hle
    rw [main_eq_evolve S cfg pfuel _ r s0 hs]
    apply evolve_stop
    left
    rw [(start_inv cfg r s0 hs).2.2.2.2.2]
    exact hle
  · intro r s0 s k hs hk
    exact afterCycles_induction S cfg pfuel (fun s => s.fitness = s.popul.avgFitness)
      (fun s s1 _ h => by
        obtain ⟨_, _, _, _, _, _, _, _, _, _, hf⟩ := cycle_individuals S cfg pfuel s s1 h
        exact hf)
      k s0 s (start_inv cfg r s0 hs).2.2.2.2.2 hk

/-- The statement of C10 on the sample run with maxGenerations = 0: main runs one
breeding cycle and leaves the loop by the test on the generation counter. -/
theorem C10_loop_termination_witness :
    main insertionSorter sampleConfigOneGeneration 5 2 sampleRand = (1, .ok sampleAfterOne)
    ∧ (((main insertionSorter sampleConfigOneGeneration 5 2 sampleRand).1 : Nat) : Int)
        ≤ sampleConfigOneGeneration.maxGenerations + 1 :=
  ⟨rfl, (C10_loop_termination insertionSorter sampleConfigOneGeneration 5 (by decide)).1
    sampleRand 2⟩

/-! ## Generation stamping -/

/-- Claim C11, as the code has it.  A completed breeding cycle stamps every
individual with the value the counter gen had when the cycle began and only
then increments the counter: when the cycle ends (where DbWrite is called)
every generation tag is one less than the counter, not equal to it. -/
theorem C11_generation_stamp {M : Float64Model} (S : Sorter) (cfg : Config M) (pfuel : Nat)
    (s s1 : LoopState M) (h : cycle S cfg pfuel s = .ok s1) :
    s1.gen = s.gen + 1
    ∧ (∀ i ∈ s1.popul.individuals, i.generation = s.gen)
    ∧ (∀ i ∈ s1.popul.individuals, i.generation = s1.gen - 1 ∧ i.generation ≠ s1.gen) := by
  obtain ⟨_, _, p2, _, _, hmap, _, _, hg, _⟩ := cycle_individuals S cfg pfuel s s1 h
  have htag : ∀ i ∈ s1.popul.individuals, i.generation = s.gen := by
    intro i hi
    rw [hmap] at hi
    obtain ⟨j, _, hj⟩ := List.mem_map.mp hi
    rw [← hj]
  refine ⟨hg, htag, fun i hi => ?_⟩
  have := htag i hi
  constructor <;> omega

/-- The first cycle of the sample run: the counter becomes 1 and both survivors
carry the generation tag 0. -/
theorem C11_generation_stamp_witness :
    cycle insertionSorter sampleConfig 5 sampleStart = .ok sampleAfterOne
    ∧ sampleAfterOne.gen = 1
    ∧ sampleAfterOne.popul.individuals.map (fun i => i.generation) = [0, 0]
    ∧ (∀ i ∈ sampleAfterOne.popul.individuals,
        i.generation = sampleAfterOne.gen - 1 ∧ i.generation ≠ sampleAfterOne.gen) :=
  ⟨rfl, rfl, rfl,
    (C11_generation_stamp insertionSorter sampleConfig 5 sampleStart sampleAfterOne rfl).2.2⟩

/-! ## Parent selection -/

theorem resampleMother_ok (length father : Int) (fuel : Nat) (mother : Int) (r r' : Rand)
    (m : Int) (h : resampleMother length father fuel mother r = .ok (m, r')) :
    m ≠ father ∧ (m = mother ∨ (0 ≤ m ∧ m < length)) := by
  induction fuel generalizing mother r with
  | zero =>
    unfold resampleMother at h
    split at h
    · simp at h
    · rename_i hne
      simp only [Outcome.ok.injEq, Prod.mk.injEq] at h
      rw [← h.1]
      exact ⟨hne, Or.inl rfl⟩
  | succ fuel ih =>
    unfold resampleMother at h
    split at h
    · simp only [bind] at h
      obtain ⟨⟨m1, r1⟩, hd, hrest⟩ := Outcome.bind_eq_ok _ _ _ h
      obtain ⟨_, h0, h1, _, _⟩ := Intn_ok _ _ _ _ hd
      obtain ⟨hne, hor⟩ := ih m1 r1 hrest
      refine ⟨hne, Or.inr ?_⟩
      rcases hor with h | h
      · rw [h]; exact ⟨h0, h1⟩
      · exact h
    · rename_i hne
      simp only [Outcome.ok.injEq, Prod.mk.injEq] at h
      rw [← h.1]
      exact ⟨hne, Or.inl rfl⟩

theorem Intn_of_pos (n : Int) (r : Rand) (hn : 0 < n) :
    Intn n r = .ok ((r.peek : Int) % n, r.advance) := by
  simp [Intn, not_le.mpr hn]

theorem resampleMother_cases (length father : Int) (fuel : Nat) (mother : Int) (r : Rand)
    (hn : 0 < length) :
    resampleMother length father fuel mother r = .hang
      ∨ ∃ x, resampleMother length father fuel mother r = .ok x := by
  induction fuel generalizing mother r with
  | zero =>
    unfold resampleMother
    split
    · exact Or.inl rfl
    · exact Or.inr ⟨_, rfl⟩
  | succ fuel ih =>
    unfold resampleMother
    split
    · simp only [bind, Outcome.bind, Intn_of_pos length r hn]
      exact ih _ _
    · exact Or.inr ⟨_, rfl⟩

theorem resampleMother_mono (length father : Int) (fuel fuel' : Nat) (mother : Int)
    (r : Rand) (x : Int × Rand) (hle : fuel ≤ fuel')
    (h : resampleMother length father fuel mother r = .ok x) :
    resampleMother length father fuel' mother r = .ok x := by
  induction fuel generalizing fuel' mother r with
  | zero =>
    unfold resampleMother at h
    split at h
    · simp at h
    · rename_i hne
      cases fuel' with
      | zero => simp only [resampleMother, hne, if_false]; exact h
      | succ k => simp only [resampleMother, hne, if_false]; exact h
  | succ fuel ih =>
    cases fuel' with
    | zero => omega
    | succ k =>
      unfold resampleMother at h
      unfold resampleMother
      split
      · rename_i heq
        rw [if_pos heq] at h
        simp only [bind] at h ⊢
        obtain ⟨⟨m1, r1⟩, hd, hrest⟩ := Outcome.bind_eq_ok _ _ _ h
        rw [hd]
        exact ih k m1 r1 (by omega) hrest
      · rename_i hne
        rw [if_neg hne] at h
        exact h

/-- Claim C12.  On a population of at least two individuals, for every random
source: ParentSelection never panics or exits; when the resampling loop ends
(the call returns) the chosen indices mother and father lie in [0, len), differ,
and the pair returned is (individuals[mother], individuals[father]); and a
call that returns within some bound on the redraws returns the same under every
larger bound. -/
theorem C12_parent_selection {M : Float64Model} (p : population M) (fuel : Nat) (r : Rand)
    (hlen : 2 ≤ p.individuals.length) :
    (∀ (a b : individual) (r' : Rand), p.ParentSelection fuel r = .ok ((a, b), r') →
      ∃ mother father : Int, 0 ≤ mother ∧ mother < p.individuals.length
        ∧ 0 ≤ father ∧ father < p.individuals.length ∧ mother ≠ father
        ∧ p.individuals[mother.toNat]? = some a ∧ p.individuals[father.toNat]? = some b)
    ∧ (p.ParentSelection fuel r = .hang ∨ ∃ x, p.ParentSelection fuel r = .ok x)
    ∧ (∀ x fuel', fuel ≤ fuel' → p.ParentSelection fuel r = .ok x →
        p.ParentSelection fuel' r = .ok x) := by
  have hpos : (0 : Int) < p.individuals.length := by omega
  refine ⟨?_, ?_, ?_⟩
  · intro a b r' h
    simp only [population.ParentSelection, bind, pure] at h
    obtain ⟨⟨m, r1⟩, hm, h1⟩ := Outcome.bind_eq_ok _ _ _ h
    obtain ⟨⟨f, r2⟩, hf, h2⟩ := Outcome.bind_eq_ok _ _ _ h1
    obtain ⟨⟨m1, r3⟩, hres, h3⟩ := Outcome.bind_eq_ok _ _ _ h2
    obtain ⟨⟨a', b'⟩, h4, h5⟩ := Outcome.bind_eq_ok _ _ _ h3
    simp only [Outcome.ok.injEq, Prod.mk.injEq] at h5
    obtain ⟨ha, hb⟩ := TwoIndividual_ok p m1 f a' b' h4
    obtain ⟨_, hm0, hm1, _, _⟩ := Intn_ok _ _ _ _ hm
    obtain ⟨_, hf0, hf1, _, _⟩ := Intn_ok _ _ _ _ hf
    obtain ⟨hne, hor⟩ := resampleMother_ok _ _ _ _ _ _ _ hres
    have hrange : 0 ≤ m1 ∧ m1 < p.individuals.length := by
      rcases hor with h | h
      · rw [h]; exact ⟨hm0, hm1⟩
      · exact h
    refine ⟨m1, f, hrange.1, hrange.2, hf0, hf1, hne, ?_, ?_⟩
    · rw [← h5.1.1]; exact (index_ok _ _ _ ha).2.2
    · rw [← h5.1.2]; exact (index_ok _ _ _ hb).2.2
  · simp only [population.ParentSelection, bind, Outcome.bind, Intn_of_pos _ _ hpos, pure]
    rcases resampleMother_cases (p.individuals.length : Int)
        ((r.advance.peek : Int) % p.individuals.length) fuel
        ((r.peek : Int) % p.individuals.length) r.advance.advance hpos with h | ⟨⟨m1, r3⟩, h⟩
    · left; rw [h]
    · right
      rw [h]
      obtain ⟨hne, hor⟩ := resampleMother_ok _ _ _ _ _ _ _ h
      have hm0 : 0 ≤ (r.peek : Int) % p.individuals.length :=
        Int.emod_nonneg _ (ne_of_gt hpos)
      have hm1 : (r.peek : Int) % p.individuals.length < p.individuals.length :=
        Int.emod_lt_of_pos _ hpos
      have hf0 : 0 ≤ (r.advance.peek : Int) % p.individuals.length :=
        Int.emod_nonneg _ (ne_of_gt hpos)
      have hf1 : (r.advance.peek : Int) % p.individuals.length < p.individuals.length :=
        Int.emod_lt_of_pos _ hpos
      have hrange : 0 ≤ m1 ∧ m1 < p.individuals.length := by
        rcases hor with h | h
        · rw [h]; exact ⟨hm0, hm1⟩
        · exact h
      obtain ⟨a, ha, _⟩ := index_of_lt p.individuals m1 hrange.1 hrange.2
      obtain ⟨b, hb, _⟩ := index_of_lt p.individuals _ hf0 hf1
      exact ⟨((a, b), r3), by simp only [population.TwoIndividual, bind, Outcome.bind, ha, hb, pure]⟩
  · intro x fuel' hle h
    simp only [population.ParentSelection, bind, Outcome.bind, Intn_of_pos _ _ hpos, pure] at h ⊢
    cases hres : resampleMother (p.individuals.length : Int)
        ((r.advance.peek : Int) % p.individuals.length) fuel
        ((r.peek : Int) % p.individuals.length) r.advance.advance with
    | ok y =>
      rw [hres] at h
      rw [resampleMother_mono _ _ fuel fuel' _ _ y hle hres]
      exact h
    | panic => rw [hres] at h; simp at h
    | exit w => rw [hres] at h; simp at h
    | hang => rw [hres] at h; simp at h

/-- The statement of C12 on the two individuals of the sample start with the
draws 0, 0, 0, 1: mother and father are both drawn as 0, the mother is redrawn
twice, and the pair returned is (individuals[1], individuals[0]). -/
theorem C12_parent_selection_witness :
    sampleStart.popul.ParentSelection 5 resampleRand
      = .ok ((⟨[0, 1], 2, 1, 0⟩, ⟨[1, 0], 2, 1, 0⟩), ⟨resampleRand.draws, 4⟩)
    ∧ ∃ mother father : Int, 0 ≤ mother ∧ mother < sampleStart.popul.individuals.length
        ∧ 0 ≤ father ∧ father < sampleStart.popul.individuals.length ∧ mother ≠ father
        ∧ sampleStart.popul.individuals[mother.toNat]? = some ⟨[0, 1], 2, 1, 0⟩
        ∧ sampleStart.popul.individuals[father.toNat]? = some ⟨[1, 0], 2, 1, 0⟩ :=
  ⟨rfl, (C12_parent_selection sampleStart.popul 5 resampleRand (by decide)).1
    ⟨[0, 1], 2, 1, 0⟩ ⟨[1, 0], 2, 1, 0⟩ ⟨resampleRand.draws, 4⟩ rfl⟩

/-! ## The postcondition of Initialize -/

theorem initLoop_ok {M : Float64Model} (length : Int) (n : Nat) (p : population M) (r : Rand)
    (hl : 0 ≤ length) (hmax : length ≤ M.maxSliceLen) :
    ∃ p1 r', initLoop length n p r = .ok (p1, r') := by
  induction n generalizing p r with
  | zero => exact ⟨p, r, rfl⟩
  | succ n ih =>
    obtain ⟨vs, hvs, _, _⟩ := createRandomValues_ok M length r hl hmax
    obtain ⟨p1, r', h⟩ := ih (p.AppendIndividual ⟨vs, length, fitness vs, 0⟩)
      ⟨r.draws, r.pos + length.toNat⟩
    exact ⟨p1, r', by simp only [initLoop, bind, Outcome.bind, hvs, h]⟩

theorem initLoop_panic {M : Float64Model} (length : Int) (n : Nat) (p : population M)
    (r : Rand) (h : length < 0 ∨ M.maxSliceLen < length) :
    initLoop length (n + 1) p r = .panic := by
  simp only [initLoop, bind, Outcome.bind, createRandomValues_panic M length r h]

/-- Claim C13, as the code has it.  For size >= 0, genomeLength >= 0 and every
random source: when genomeLength is at most the largest length that
make([]int, n) accepts, Initialize(size, genomeLength) on a population without
individuals returns, and the population it yields holds exactly size
individuals, each with a genome of genomeLength genes that are all 0 or 1,
generation tag 0, amount genomeLength and cached fitness equal to
fitness(genome), with maxIndividuals = size and maxFitness = genomeLength; when
genomeLength is above that length, as every genomeLength above 2^45 is, and
size >= 1, Initialize panics in make. -/
theorem C13_initialize_postcondition {M : Float64Model} (p0 : population M)
    (size genomeLength : Int) (r : Rand) (hempty : p0.individuals = [])
    (hsize : 0 ≤ size) (hlen : 0 ≤ genomeLength) :
    (genomeLength ≤ M.maxSliceLen →
      ∃ p1 r', p0.Initialize size genomeLength r = .ok (p1, r')
        ∧ (p1.individuals.length : Int) = size
        ∧ (∀ i ∈ p1.individuals, (i.entities.length : Int) = genomeLength
            ∧ (∀ v ∈ i.entities, v = 0 ∨ v = 1) ∧ i.amount = genomeLength
            ∧ i.generation = 0 ∧ i.fitness = fitness i.entities)
        ∧ p1.maxIndividuals = size ∧ p1.maxFitness = genomeLength)
    ∧ (M.maxSliceLen < genomeLength → 1 ≤ size →
        p0.Initialize size genomeLength r = .panic)
    ∧ (35184372088832 < genomeLength → 1 ≤ size →
        p0.Initialize size genomeLength r = .panic) := by
  have hpanic : M.maxSliceLen < genomeLength → 1 ≤ size →
      p0.Initialize size genomeLength r = .panic := by
    intro hbig hone
    obtain ⟨n, hn⟩ : ∃ n, size.toNat = n + 1 := ⟨size.toNat - 1, by omega⟩
    unfold population.Initialize
    rw [hn]
    exact initLoop_panic genomeLength n _ r (Or.inr hbig)
  refine ⟨?_, hpanic, fun hbig hone =>
    hpanic (lt_of_le_of_lt M.maxSliceLen_le hbig) hone⟩
  · intro hmax
    obtain ⟨p1, r', h⟩ := initLoop_ok genomeLength size.toNat
      { p0 with maxIndividuals := size, maxFitness := genomeLength } r hlen hmax
    have hinit : p0.Initialize size genomeLength r = .ok (p1, r') := h
    obtain ⟨hmi, hmf, _, fresh, hf, hfl, hfa⟩ :=
      Initialize_inv p0 p1 size genomeLength r r' hinit
    have hind : p1.individuals = fresh := by rw [hf, hempty, List.nil_append]
    refine ⟨p1, r', hinit, by rw [hind, hfl]; omega, ?_, hmi, hmf⟩
    intro i hi
    rw [hind] at hi
    obtain ⟨h1, h2, h3, h4, h5⟩ := hfa i hi
    exact ⟨h1, h2, h3, h5, h4⟩

/-- The statement of C13 at Initialize(2, 2) on the empty population with the
sample random source, which builds the genomes [1,0] and [0,1]. -/
theorem C13_initialize_postcondition_witness :
    (population.zero exactFloat).Initialize 2 2 sampleRand
      = .ok (⟨[⟨[1, 0], 2, 1, 0⟩, ⟨[0, 1], 2, 1, 0⟩], 2, 2, (0, 1)⟩, ⟨sampleRand.draws, 4⟩)
    ∧ ∃ p1 r', (population.zero exactFloat).Initialize 2 2 sampleRand = .ok (p1, r')
      ∧ (p1.individuals.length : Int) = 2
      ∧ (∀ i ∈ p1.individuals, (i.entities.length : Int) = 2
          ∧ (∀ v ∈ i.entities, v = 0 ∨ v = 1) ∧ i.amount = 2
          ∧ i.generation = 0 ∧ i.fitness = fitness i.entities)
      ∧ p1.maxIndividuals = 2 ∧ p1.maxFitness = 2 :=
  ⟨rfl, (C13_initialize_postcondition (population.zero exactFloat) 2 2 sampleRand rfl
    (by decide) (by decide)).1 (by decide)⟩

/-- Claim C13 fails as stated: with genomeLength = 2^61 >= 0 and size = 1,
Initialize on the empty population does not yield a population; it panics in
make([]int, 1<<61) (makeslice: len out of range). -/
theorem C13_counterexample :
    (0 : Int) ≤ 1 ∧ (0 : Int) ≤ 2305843009213693952
    ∧ (population.zero exactFloat).Initialize 1 2305843009213693952 zeroRand = .panic :=
  ⟨by decide, by decide, rfl⟩

/-! ## Flipping one gene -/

/-- Claim C14.  For a position pos with 0 <= pos < len, FlipTheBit(pos) returns
the individual with the same number of genes, every gene at another position
unchanged, and the gene at pos rewritten to 1 where it was 0 and to 0
elsewhere, which is 1 - (old gene) when the old gene is 0 or 1; for pos < 0 or
pos >= len the call panics (index out of range). -/
theorem C14_flip_the_bit (i : individual) (pos : Int) :
    (0 ≤ pos → pos < i.entities.length →
      ∃ i' old, i.FlipTheBit pos = .ok i' ∧ i.entities[pos.toNat]? = some old
        ∧ i'.entities.length = i.entities.length
        ∧ i'.entities[pos.toNat]? = some (if old = 0 then 1 else 0)
        ∧ ((old = 0 ∨ old = 1) → i'.entities[pos.toNat]? = some (1 - old))
        ∧ (∀ j : Nat, j ≠ pos.toNat → i'.entities[j]? = i.entities[j]?)
        ∧ i'.amount = i.amount ∧ i'.fitness = i.fitness ∧ i'.generation = i.generation)
    ∧ ((pos < 0 ∨ (i.entities.length : Int) ≤ pos) → i.FlipTheBit pos = .panic) := by
  constructor
  · intro h0 h1
    obtain ⟨old, hold, hflip⟩ := FlipTheBit_of_lt i pos h0 h1
    have hlt : pos.toNat < i.entities.length := by omega
    have hnew : (i.entities.set pos.toNat (if old = 0 then 1 else 0))[pos.toNat]?
        = some (if old = 0 then 1 else 0) := by
      rw [List.getElem?_set_self hlt]
    refine ⟨_, old, hflip, hold, by simp, hnew, ?_, ?_, rfl, rfl, rfl⟩
    · intro hbin
      simp only
      rw [hnew]
      rcases hbin with h | h <;> simp [h]
    · intro j hj
      simp only
      rw [List.getElem?_set_ne (Ne.symm hj)]
  · intro h
    rcases h with h | h
    · simp [individual.FlipTheBit, index, not_le.mpr h, bind, Outcome.bind]
    · by_cases h0 : 0 ≤ pos
      · have hnone : i.entities[pos.toNat]? = none :=
          List.getElem?_eq_none (by omega)
        simp [individual.FlipTheBit, index, h0, hnone, bind, Outcome.bind]
      · simp [individual.FlipTheBit, index, h0, bind, Outcome.bind]

/-- The statement of C14 on the genome [1, 0, 1]: flipping position 1 gives
[1, 1, 1], and position 3 is out of range. -/
theorem C14_flip_the_bit_witness :
    individual.FlipTheBit ⟨[1, 0, 1], 3, 2, 0⟩ 1 = .ok ⟨[1, 1, 1], 3, 2, 0⟩
    ∧ individual.FlipTheBit ⟨[1, 0, 1], 3, 2, 0⟩ 3 = .panic
    ∧ ∃ i' old, individual.FlipTheBit ⟨[1, 0, 1], 3, 2, 0⟩ 1 = .ok i'
        ∧ ([1, 0, 1] : List Int)[(1 : Int).toNat]? = some old
        ∧ i'.entities.length = 3
        ∧ i'.entities[(1 : Int).toNat]? = some (if old = 0 then 1 else 0)
        ∧ ((old = 0 ∨ old = 1) → i'.entities[(1 : Int).toNat]? = some (1 - old))
        ∧ (∀ j : Nat, j ≠ (1 : Int).toNat → i'.entities[j]? = ([1, 0, 1] : List Int)[j]?)
        ∧ i'.amount = 3 ∧ i'.fitness = 2 ∧ i'.generation = 0 :=
  ⟨rfl, (C14_flip_the_bit ⟨[1, 0, 1], 3, 2, 0⟩ 3).2 (Or.inr (by decide)),
    (C14_flip_the_bit ⟨[1, 0, 1], 3, 2, 0⟩ 1).1 (by decide) (by decide)⟩

/-! ## Lookup by genome -/

theorem testEqLoop_iff (a b : List Int) (h : a.length = b.length) :
    testEqLoop a b = true ↔ a = b := by
  induction a generalizing b with
  | nil =>
    cases b with
    | nil => simp [testEqLoop]
    | cons y ys => simp at h
  | cons x xs ih =>
    cases b with
    | nil => simp at h
    | cons y ys =>
      simp only [List.length_cons, add_left_inj] at h
      by_cases hxy : x = y
      · simp [testEqLoop, hxy, ih ys h]
      · simp [testEqLoop, hxy]

theorem testEq_iff (a b : List Int) : testEq a b = true ↔ a = b := by
  unfold testEq
  by_cases h : a.length = b.length
  · simp only [ne_eq, h, not_true_eq_false, if_false]
    exact testEqLoop_iff a b h
  · simp only [ne_eq, h, not_false_eq_true, if_true, Bool.false_eq_true, false_iff]
    intro hab
    exact h (by rw [hab])

theorem posLoop_spec (target : List Int) (l : List individual) (k : Int) :
    (posLoop target l k = -1 ∧ ∀ v ∈ l, v.entities ≠ target)
    ∨ ∃ pre v post, l = pre ++ v :: post ∧ (∀ u ∈ pre, u.entities ≠ target)
        ∧ v.entities = target ∧ posLoop target l k = k + pre.length := by
  induction l generalizing k with
  | nil => exact Or.inl ⟨rfl, by simp⟩
  | cons v rest ih =>
    by_cases hv : v.entities = target
    · refine Or.inr ⟨[], v, rest, rfl, by simp, hv, ?_⟩
      simp [posLoop, (testEq_iff _ _).mpr hv]
    · have hne : testEq v.entities target = false := by
        cases ht : testEq v.entities target with
        | false => rfl
        | true => exact absurd ((testEq_iff _ _).mp ht) hv
      rcases ih (k + 1) with ⟨h1, h2⟩ | ⟨pre, w, post, hl, hpre, hw, hpos⟩
      · refine Or.inl ⟨by simp only [posLoop, hne, Bool.false_eq_true, if_false]; exact h1, ?_⟩
        intro u hu
        rcases List.mem_cons.mp hu with h | h
        · rw [h]; exact hv
        · exact h2 u h
      · refine Or.inr ⟨v :: pre, w, post, by rw [hl]; rfl, ?_, hw, ?_⟩
        · intro u hu
          rcases List.mem_cons.mp hu with h | h
          · rw [h]; exact hv
          · exact hpre u h
        · simp only [posLoop, hne, Bool.false_eq_true, if_false, hpos, List.length_cons]
          push_cast
          ring

/-- Claim C15.  Pos(i) looks at the genomes only.  When the individuals are
pre ++ v :: post with v the first whose entities equal i.entities (same length,
same genes), Pos(i) is the index of v, the length of pre; Pos(i) is -1 exactly
when no individual has entities equal to i.entities; otherwise it is an index
in [0, len); and two arguments with equal entities give the same result,
whatever their fitness, amount and generation. -/
theorem C15_pos {M : Float64Model} (p : population M) (i : individual) :
    (∀ (pre post : List individual) (v : individual), p.individuals = pre ++ v :: post →
      (∀ u ∈ pre, u.entities ≠ i.entities) → v.entities = i.entities →
      p.Pos i = pre.length)
    ∧ (p.Pos i = -1 ↔ ∀ v ∈ p.individuals, v.entities ≠ i.entities)
    ∧ (p.Pos i ≠ -1 → 0 ≤ p.Pos i ∧ p.Pos i < p.individuals.length
        ∧ ∃ v, p.individuals[(p.Pos i).toNat]? = some v ∧ v.entities = i.entities
          ∧ ∀ (j : Nat) (u : individual), j < (p.Pos i).toNat →
              p.individuals[j]? = some u → u.entities ≠ i.entities)
    ∧ (∀ i' : individual, i'.entities = i.entities → p.Pos i' = p.Pos i) := by
  have hspec := posLoop_spec i.entities p.individuals 0
  refine ⟨?_, ?_, ?_, ?_⟩
  · intro pre post v hl hpre hv
    rcases hspec with ⟨_, hnone⟩ | ⟨pre', w, post', hl', hpre', hw, hpos⟩
    · exact absurd hv (hnone v (by rw [hl]; simp))
    · have hlen : pre'.length = pre.length := by
        rcases Nat.lt_trichotomy pre'.length pre.length with h | h | h
        · exfalso
          have hmem : w ∈ pre := by
            have h1 : p.individuals[pre'.length]? = some w := by
              rw [hl', List.getElem?_append_right (le_refl _)]; simp
            rw [hl, List.getElem?_append_left h] at h1
            exact List.getElem?_mem h1
          exact hpre w hmem hw
        · exact h
        · exfalso
          have hmem : v ∈ pre' := by
            have h1 : p.individuals[pre.length]? = some v := by
              rw [hl, List.getElem?_append_right (le_refl _)]; simp
            rw [hl', List.getElem?_append_left h] at h1
            exact List.getElem?_mem h1
          exact hpre' v hmem hv
      unfold population.Pos
      rw [hpos, hlen, zero_add]
  · constructor
    · intro hneg
      rcases hspec with ⟨_, hnone⟩ | ⟨pre', w, post', _, _, _, hpos⟩
      · exact hnone
      · unfold population.Pos at hneg
        rw [hpos] at hneg
        omega
    · intro hnone
      rcases hspec with ⟨h, _⟩ | ⟨pre', w, post', hl', _, hw, _⟩
      · exact h
      · exact absurd hw (hnone w (by rw [hl']; simp))
  · intro hne
    rcases hspec with ⟨h, _⟩ | ⟨pre', w, post', hl', hpre', hw, hpos⟩
    · exact absurd h hne
    · have hP : p.Pos i = pre'.length := by unfold population.Pos; rw [hpos, zero_add]
      have hnat : (p.Pos i).toNat = pre'.length := by rw [hP]; exact Int.toNat_natCast _
      refine ⟨by rw [hP]; exact Int.natCast_nonneg _, ?_, w, ?_, hw, ?_⟩
      · rw [hP, hl']; simp only [List.length_append, List.length_cons]; push_cast; omega
      · rw [hnat, hl', List.getElem?_append_right (le_refl _)]; simp
      · intro j u hj hu
        rw [hnat] at hj
        rw [hl', List.getElem?_append_left hj] at hu
        exact hpre' u (List.getElem?_mem hu)
  · intro i' hi'
    unfold population.Pos
    rw [hi']

/-- The statement of C15 on the sample population [1,0], [0,0], [1,1]: an
individual with genome [0,0] and other cached fields is found at index 1, and
the genome [0,1] is not found. -/
theorem C15_pos_witness :
    samplePopulation.Pos ⟨[0, 0], 7, 9, 3⟩ = 1
    ∧ samplePopulation.Pos ⟨[0, 1], 2, 1, 0⟩ = -1
    ∧ (samplePopulation.Pos ⟨[0, 0], 7, 9, 3⟩ ≠ -1 →
        0 ≤ samplePopulation.Pos ⟨[0, 0], 7, 9, 3⟩
        ∧ samplePopulation.Pos ⟨[0, 0], 7, 9, 3⟩ < samplePopulation.individuals.length
        ∧ ∃ v, samplePopulation.individuals[(samplePopulation.Pos ⟨[0, 0], 7, 9, 3⟩).toNat]?
              = some v ∧ v.entities = [0, 0]
          ∧ ∀ (j : Nat) (u : individual),
              j < (samplePopulation.Pos ⟨[0, 0], 7, 9, 3⟩).toNat →
              samplePopulation.individuals[j]? = some u → u.entities ≠ [0, 0]) :=
  ⟨(C15_pos samplePopulation ⟨[0, 0], 7, 9, 3⟩).1 [⟨[1, 0], 2, 1, 0⟩] [⟨[1, 1], 2, 2, 0⟩]
      ⟨[0, 0], 2, 0, 0⟩ rfl (by decide) rfl,
    by decide, (C15_pos samplePopulation ⟨[0, 0], 7, 9, 3⟩).2.2.1⟩

/-! ## Truncation of a population that is too small -/

/-- Claim C16.  With N = amountOfIndividuals >= 0, KillWeak panics (slice bounds
out of range) exactly when the population holds fewer than N individuals; it
is never cut off by a loop, and whenever it returns, the population it
returns holds exactly N individuals. -/
theorem C16_killWeak_too_small {M : Float64Model} (S : Sorter) (cfg : Config M)
    (p : population M) (hN0 : 0 ≤ cfg.amountOfIndividuals) :
    (p.KillWeak S cfg = .panic ↔ (p.individuals.length : Int) < cfg.amountOfIndividuals)
    ∧ p.KillWeak S cfg ≠ .hang
    ∧ ∀ p', p.KillWeak S cfg = .ok p' →
        (p'.individuals.length : Int) = cfg.amountOfIndividuals := by
  have hlen := S.length_sort p.individuals
  refine ⟨⟨fun hp => ?_, fun hlt => ?_⟩, ?_, fun p' h => KillWeak_ok_length S cfg p p' h⟩
  · by_contra hge
    exact (KillWeak_ne_panic S cfg p hN0 (not_lt.mp hge)).1 hp
  · unfold population.KillWeak
    simp only
    rw [if_neg (by rw [hlen]; omega)]
  · by_cases hlt : (p.individuals.length : Int) < cfg.amountOfIndividuals
    · unfold population.KillWeak
      simp only
      rw [if_neg (by rw [hlen]; omega)]
      simp
    · exact (KillWeak_ne_panic S cfg p hN0 (not_lt.mp hlt)).2

/-- The statement of C16 on the sample population of three individuals with
N = 4: KillWeak panics. -/
theorem C16_killWeak_too_small_witness :
    samplePopulation.KillWeak insertionSorter scenarioConfig = .panic
    ∧ (samplePopulation.individuals.length : Int) < scenarioConfig.amountOfIndividuals :=
  ⟨(C16_killWeak_too_small insertionSorter scenarioConfig samplePopulation
    (by decide)).1.mpr (by decide), by decide⟩

/-! ## Recomputing the cached fitness -/

/-- Claim C18.  After population.RefreshFitness the individuals are the same in
number and order, each with its genome, amount and generation unchanged and its
cached fitness equal to fitness(entities); maxIndividuals, maxFitness and
avgFitness are unchanged; and a second RefreshFitness changes nothing. -/
theorem C18_refreshFitness_idempotent {M : Float64Model} (p : population M) :
    p.RefreshFitness.individuals
        = p.individuals.map (fun i => ⟨i.entities, i.amount, fitness i.entities, i.generation⟩)
    ∧ (∀ i ∈ p.RefreshFitness.individuals, i.fitness = fitness i.entities)
    ∧ p.RefreshFitness.individuals.length = p.individuals.length
    ∧ p.RefreshFitness.individuals.map (fun i => i.entities)
        = p.individuals.map (fun i => i.entities)
    ∧ p.RefreshFitness.individuals.map (fun i => i.amount)
        = p.individuals.map (fun i => i.amount)
    ∧ p.RefreshFitness.individuals.map (fun i => i.generation)
        = p.individuals.map (fun i => i.generation)
    ∧ p.RefreshFitness.avgFitness = p.avgFitness
    ∧ p.RefreshFitness.maxIndividuals = p.maxIndividuals
    ∧ p.RefreshFitness.maxFitness = p.maxFitness
    ∧ p.RefreshFitness.RefreshFitness = p.RefreshFitness := by
  have hcons : ∀ i ∈ p.RefreshFitness.individuals, i.fitness = fitness i.entities := by
    intro i hi
    simp only [population.RefreshFitness] at hi
    obtain ⟨j, _, hj⟩ := List.mem_map.mp hi
    rw [← hj]
  refine ⟨rfl, hcons, by simp [population.RefreshFitness],
    by simp [population.RefreshFitness, List.map_map, Function.comp_def],
    by simp [population.RefreshFitness, List.map_map, Function.comp_def],
    by simp [population.RefreshFitness, List.map_map, Function.comp_def],
    rfl, rfl, rfl, RefreshFitness_of_consistent _ hcons⟩

/-! ## Conservation under crossover -/

theorem fitness_take_add_drop (l : List Int) (k : Nat) :
    fitness (l.take k) + fitness (l.drop k) = fitness l := by
  rw [← fitness_append, List.take_append_drop]

/-- Claim C19.  For two parents A and B and every crossover point k with
0 <= k <= min(len A, len B), the recombination step of RandomOnePointCrossover
returns two children whose fitness values add up to fitness(A) + fitness(B),
both as cached and as recomputed, and whose genome lengths add up to
len A + len B; so do the children of every call of RandomOnePointCrossover that
returns. -/
theorem C19_crossover_conserves (A B : individual) (k : Int)
    (h0 : 0 ≤ k) (hA : k ≤ A.entities.length) (hB : k ≤ B.entities.length) :
    (∃ c1 c2, crossoverAt k A B = .ok (c1, c2)
      ∧ fitness c1.entities + fitness c2.entities = fitness A.entities + fitness B.entities
      ∧ c1.fitness + c2.fitness = fitness A.entities + fitness B.entities
      ∧ c1.entities.length + c2.entities.length = A.entities.length + B.entities.length)
    ∧ ∀ (r r' : Rand) (c1 c2 : individual),
        RandomOnePointCrossover A B r = .ok ((c1, c2), r') →
        fitness c1.entities + fitness c2.entities = fitness A.entities + fitness B.entities
        ∧ c1.entities.length + c2.entities.length
            = A.entities.length + B.entities.length := by
  have key : ∀ (j : Int) (c1 c2 : individual), crossoverAt j A B = .ok (c1, c2) →
      fitness c1.entities + fitness c2.entities = fitness A.entities + fitness B.entities
      ∧ c1.fitness + c2.fitness = fitness A.entities + fitness B.entities
      ∧ c1.entities.length + c2.entities.length
          = A.entities.length + B.entities.length := by
    intro j c1 c2 h
    obtain ⟨hj0, hjA, hjB, e1, e2, f1, f2, _⟩ := crossoverAt_inv j A B c1 c2 h
    have hsum : fitness c1.entities + fitness c2.entities
        = fitness A.entities + fitness B.entities := by
      rw [e1, e2, fitness_append, fitness_append]
      have hAs := fitness_take_add_drop A.entities j.toNat
      have hBs := fitness_take_add_drop B.entities j.toNat
      omega
    refine ⟨hsum, by rw [f1, f2]; exact hsum, ?_⟩
    rw [e1, e2]
    simp only [List.length_append, List.length_take, List.length_drop]
    omega
  refine ⟨⟨_, _, crossoverAt_ok k A B h0 hA hB, key k _ _ (crossoverAt_ok k A B h0 hA hB)⟩, ?_⟩
  intro r r' c1 c2 h
  obtain ⟨j, _, _, hc, _⟩ := RandomOnePointCrossover_inv A B c1 c2 r r' h
  exact ⟨(key j c1 c2 hc).1, (key j c1 c2 hc).2.2⟩

/-- The statement of C19 on parents of different lengths, [1, 1, 0] and [0, 1],
cut at k = 1: the children [1, 1] and [0, 1, 0] have fitness 2 + 1 = 2 + 1 and
lengths 2 + 3 = 3 + 2. -/
theorem C19_crossover_conserves_witness :
    crossoverAt 1 ⟨[1, 1, 0], 3, 2, 0⟩ ⟨[0, 1], 2, 1, 0⟩
      = .ok (⟨[1, 1], 2, 2, 0⟩, ⟨[0, 1, 0], 3, 1, 0⟩)
    ∧ ∃ c1 c2, crossoverAt 1 ⟨[1, 1, 0], 3, 2, 0⟩ ⟨[0, 1], 2, 1, 0⟩ = .ok (c1, c2)
      ∧ fitness c1.entities + fitness c2.entities = fitness [1, 1, 0] + fitness [0, 1]
      ∧ c1.fitness + c2.fitness = fitness [1, 1, 0] + fitness [0, 1]
      ∧ c1.entities.length + c2.entities.length = 3 + 2 :=
  ⟨by decide, (C19_crossover_conserves ⟨[1, 1, 0], 3, 2, 0⟩ ⟨[0, 1], 2, 1, 0⟩ 1
    (by decide) (by decide) (by decide)).1⟩

/-! ## Ties at the cut -/

theorem insertionSorter_stable : insertionSorter.Stable := by
  intro l f
  have hsub : List.Sublist (l.filter (fun i => decide (i.fitness = f)))
      (l.insertionSort (fun a b => a.fitness ≤ b.fitness)) := by
    apply List.sublist_insertionSort
    · apply List.pairwise_of_forall_mem_list
      intro a ha b hb
      have ha' := (List.mem_filter.mp ha).2
      have hb' := (List.mem_filter.mp hb).2
      simp only [decide_eq_true_eq] at ha' hb'
      rw [ha', hb']
    · exact List.filter_sublist l
  have hsub2 := hsub.filter (fun i => decide (i.fitness = f))
  rw [List.filter_filter] at hsub2
  simp only [Bool.and_self] at hsub2
  have hlen : (l.filter (fun i => decide (i.fitness = f))).length
      = ((l.insertionSort (fun a b => a.fitness ≤ b.fitness)).filter
          (fun i => decide (i.fitness = f))).length := by
    rw [← List.countP_eq_length_filter, ← List.countP_eq_length_filter]
    exact ((List.perm_insertionSort _ l).countP_eq _).symm
  exact (hsub2.eq_of_length hlen).symm

theorem swap_adjacent_filter (v : List individual) (j : Nat) (f : Int)
    (h : byFitness.Less v (j + 1) j = true) :
    (byFitness.Swap v (j + 1) j).filter (fun i => decide (i.fitness = f))
      = v.filter (fun i => decide (i.fitness = f)) := by
  induction v generalizing j with
  | nil => simp [byFitness.Less] at h
  | cons x rest ih =>
    cases j with
    | zero =>
      cases rest with
      | nil => simp [byFitness.Less] at h
      | cons y r =>
        simp only [byFitness.Less, List.getElem?_cons_succ, List.getElem?_cons_zero,
          decide_eq_true_eq] at h
        have hswap : byFitness.Swap (x :: y :: r) (0 + 1) 0 = y :: x :: r := by
          simp [byFitness.Swap]
        rw [hswap]
        by_cases hx : x.fitness = f
        · have hy : ¬ y.fitness = f := by omega
          simp [List.filter_cons, hx, hy]
        · simp [List.filter_cons, hx]
    | succ k =>
      have hless : byFitness.Less rest (k + 1) k = true := by
        simpa [byFitness.Less] using h
      have hswap : byFitness.Swap (x :: rest) (k + 1 + 1) (k + 1)
          = x :: byFitness.Swap rest (k + 1) k := by
        simp only [byFitness.Swap, List.getElem?_cons_succ]
        cases rest[k + 1]? <;> cases rest[k]? <;> simp
      rw [hswap, List.filter_cons, List.filter_cons, ih k hless]

theorem insertDown_filter (a j : Nat) (v : List individual) (f : Int) :
    (insertDown a j v).filter (fun i => decide (i.fitness = f))
      = v.filter (fun i => decide (i.fitness = f)) := by
  induction j generalizing v with
  | zero => rfl
  | succ j ih =>
    unfold insertDown
    split
    · rename_i hc
      rw [ih, swap_adjacent_filter v j f hc.2]
    · rfl

theorem insertionSortLoop_filter (a n i : Nat) (v : List individual) (f : Int) :
    (insertionSortLoop a n i v).filter (fun x => decide (x.fitness = f))
      = v.filter (fun x => decide (x.fitness = f)) := by
  induction n generalizing i v with
  | zero => rfl
  | succ n ih =>
    unfold insertionSortLoop
    rw [ih, insertDown_filter]

theorem goSort_short (l : List individual) (h : l.length ≤ 12) :
    goSort l = some l ∨ goSort l = some (insertionSortRange l 0 l.length) := by
  unfold goSort
  by_cases h1 : l.length ≤ 1
  · left; rw [if_pos h1]
  · right
    rw [if_neg h1]
    simp only [pdqsort, Nat.sub_zero, h, if_true]

theorem librarySort_filter_short (l : List individual) (h : l.length ≤ 12) (f : Int) :
    (librarySort l).filter (fun i => decide (i.fitness = f))
      = l.filter (fun i => decide (i.fitness = f)) := by
  have hfall := insertionSorter_stable l f
  unfold librarySort
  rcases goSort_short l h with hg | hg
  · rw [hg]
    simp only
    split
    · rfl
    · exact hfall
  · rw [hg]
    simp only
    split
    · exact insertionSortLoop_filter _ _ _ _ _
    · exact hfall

/-- Claim C17, as the code has it.  KillWeak sorts with sort.Sort, which is not a
stable sort.  (1) Whenever the sort leaves the individuals of each fitness in
their pre-sort order, the retained individuals of each fitness are the last
ones, in pre-sort order, of the individuals of that fitness before the call:
when a tie straddles the cut, those nearer the end are retained.  (2) The
library sort does so on every population of 12 or fewer individuals, where it
is an insertion sort, and KillWeak then retains those nearer the end.  On more
than 12 individuals it need not. -/
theorem C17_killWeak_ties {M : Float64Model} (S : Sorter) (cfg : Config M)
    (p p' : population M)
    (hstable : ∀ f : Int, (S.sort p.individuals).filter (fun i => decide (i.fitness = f))
      = p.individuals.filter (fun i => decide (i.fitness = f)))
    (hok : p.KillWeak S cfg = .ok p') :
    (∀ f : Int, List.IsSuffix (p'.individuals.filter (fun i => decide (i.fitness = f)))
        (p.individuals.filter (fun i => decide (i.fitness = f))))
    ∧ (∀ (l : List individual) (f : Int), l.length ≤ 12 →
        (goSorter.sort l).filter (fun i => decide (i.fitness = f))
          = l.filter (fun i => decide (i.fitness = f)))
    ∧ (∀ (q q' : population M), q.individuals.length ≤ 12 →
        q.KillWeak goSorter cfg = .ok q' →
        ∀ f : Int, List.IsSuffix (q'.individuals.filter (fun i => decide (i.fitness = f)))
          (q.individuals.filter (fun i => decide (i.fitness = f)))) := by
  have key : ∀ (T : Sorter) (q q' : population M),
      (∀ f : Int, (T.sort q.individuals).filter (fun i => decide (i.fitness = f))
        = q.individuals.filter (fun i => decide (i.fitness = f))) →
      q.KillWeak T cfg = .ok q' →
      ∀ f : Int, List.IsSuffix (q'.individuals.filter (fun i => decide (i.fitness = f)))
        (q.individuals.filter (fun i => decide (i.fitness = f))) := by
    intro T q q' hst hq f
    obtain ⟨_, _, hi, _, _⟩ := KillWeak_ok T cfg q q' hq
    rw [hi, ← hst f]
    exact (List.drop_suffix _ _).filter _
  exact ⟨key S p p' hstable hok, fun l f hl => librarySort_filter_short l hl f,
    fun q q' hl hq => key goSorter q q' (fun f => librarySort_filter_short _ hl f) hq⟩

/-- The statement of C17 with the library sort on the two individuals [1,0] and
[0,1] of equal fitness, one of which is retained: it is [0,1], the one nearer
the end. -/
theorem C17_killWeak_ties_witness :
    tiePopulation.KillWeak goSorter sampleConfigKeepOne
      = .ok ⟨[⟨[0, 1], 2, 1, 0⟩], 1, 2, (1, 1)⟩
    ∧ (∀ f : Int, List.IsSuffix
        (([⟨[0, 1], 2, 1, 0⟩] : List individual).filter (fun i => decide (i.fitness = f)))
        (tiePopulation.individuals.filter (fun i => decide (i.fitness = f)))) :=
  ⟨rfl, (C17_killWeak_ties goSorter sampleConfigKeepOne tiePopulation
    ⟨[⟨[0, 1], 2, 1, 0⟩], 1, 2, (1, 1)⟩
    (fun f => librarySort_filter_short tiePopulation.individuals (by decide) f) rfl).1⟩

/-- Claim C17 fails as stated.  On thirteen individuals, twelve of fitness 1
followed by one of fitness 0, the library sort partitions around the individual
at index 6 and leaves the tied individuals in the order 6, 2, 3, 4, 5, 0, 7, 8,
9, 10, 11, 1.  KillWeak with three retained keeps the individuals that stood at
10, 11 and 1: the one of index 1 is kept and the one of index 9, of the same
fitness and nearer the end, is removed. -/
theorem C17_counterexample :
    goSort tiePopulation13.individuals
      = some [weakest, tied 6, tied 2, tied 3, tied 4, tied 5, tied 0, tied 7, tied 8,
          tied 9, tied 10, tied 11, tied 1]
    ∧ tiePopulation13.KillWeak goSorter sampleConfigKeepThree
      = .ok ⟨[tied 10, tied 11, tied 1], 3, 13, (3, 3)⟩
    ∧ tiePopulation13.individuals[1]? = some (tied 1)
    ∧ tiePopulation13.individuals[9]? = some (tied 9)
    ∧ (tied 1).fitness = (tied 9).fitness
    ∧ tied 1 ∈ [tied 10, tied 11, tied 1]
    ∧ tied 9 ∉ [tied 10, tied 11, tied 1]
    ∧ ¬ List.IsSuffix
        ([tied 10, tied 11, tied 1].filter (fun i => decide (i.fitness = 1)))
        (tiePopulation13.individuals.filter (fun i => decide (i.fitness = 1))) := by
  refine ⟨by rfl, by rfl, rfl, rfl, rfl, by decide, by decide, by decide⟩

/-! ## Elitist replacement -/

theorem sum_map_sub_const (l : List individual) (h : individual → Int) (m : Int) :
    (l.map (fun x => h x - m)).sum = (l.map h).sum - l.length * m := by
  induction l with
  | nil => simp
  | cons a rest ih =>
    simp only [List.map_cons, List.sum_cons, ih, List.length_cons]
    push_cast
    ring

theorem sorted_drop_dominates (s Pl C : List individual) (j : Nat)
    (hs : s.Pairwise (fun a b => ¬ b.fitness < a.fitness))
    (hperm : s.Perm (Pl ++ C))
    (hj : (s.drop j).length = Pl.length) (hpos : 1 ≤ Pl.length) :
    (fitnessValues Pl).sum ≤ (fitnessValues (s.drop j)).sum
    ∧ ∀ i ∈ Pl, ∃ k ∈ s.drop j, i.fitness ≤ k.fitness := by
  have hsplit : s.take j ++ s.drop j = s := List.take_append_drop j s
  rw [← hsplit, List.pairwise_append] at hs
  obtain ⟨_, hdrop, hcross⟩ := hs
  cases hd : s.drop j with
  | nil => rw [hd] at hj; simp at hj; omega
  | cons k0 rest =>
    have hk0 : k0 ∈ s.drop j := by rw [hd]; exact List.mem_cons_self _ _
    have hlow : ∀ d ∈ s.take j, d.fitness ≤ k0.fitness :=
      fun d hdm => not_lt.mp (hcross d hdm k0 hk0)
    have hhigh : ∀ k ∈ s.drop j, k0.fitness ≤ k.fitness := by
      intro k hk
      rw [hd] at hk hdrop
      rcases List.mem_cons.mp hk with h | h
      · rw [h]
      · exact not_lt.mp ((List.pairwise_cons.mp hdrop).1 k h)
    constructor
    · have h1 : (Pl.map (fun x => x.fitness - k0.fitness)).sum
          ≤ (Pl.map (fun x => max (x.fitness - k0.fitness) 0)).sum :=
        List.sum_le_sum (fun x _ => le_max_left _ _)
      have h2 : (Pl.map (fun x => max (x.fitness - k0.fitness) 0)).sum
          ≤ ((Pl ++ C).map (fun x => max (x.fitness - k0.fitness) 0)).sum := by
        rw [List.map_append, List.sum_append]
        have : 0 ≤ (C.map (fun x => max (x.fitness - k0.fitness) 0)).sum :=
          List.sum_nonneg (fun x hx => by
            obtain ⟨y, _, hy⟩ := List.mem_map.mp hx
            rw [← hy]; exact le_max_right _ _)
        omega
      have h3 : ((Pl ++ C).map (fun x => max (x.fitness - k0.fitness) 0)).sum
          = ((s.take j).map (fun x => max (x.fitness - k0.fitness) 0)).sum
            + ((s.drop j).map (fun x => max (x.fitness - k0.fitness) 0)).sum := by
        rw [← List.sum_append, ← List.map_append, hsplit]
        exact ((hperm.map _).sum_eq).symm
      have h4 : ((s.take j).map (fun x => max (x.fitness - k0.fitness) 0)).sum = 0 := by
        apply List.sum_eq_zero
        intro x hx
        obtain ⟨y, hy, hxy⟩ := List.mem_map.mp hx
        rw [← hxy]
        have := hlow y hy
        exact max_eq_right (by omega)
      have h5 : ((s.drop j).map (fun x => max (x.fitness - k0.fitness) 0)).sum
          = ((s.drop j).map (fun x => x.fitness - k0.fitness)).sum := by
        congr 1
        apply List.map_congr_left
        intro x hx
        have := hhigh x hx
        exact max_eq_left (by omega)
      have h6 := sum_map_sub_const Pl (fun x => x.fitness) k0.fitness
      have h7 := sum_map_sub_const (s.drop j) (fun x => x.fitness) k0.fitness
      rw [hj] at h7
      unfold fitnessValues
      rw [← hd]
      omega
    · intro i hi
      have hmem : i ∈ s.take j ++ s.drop j := by
        rw [hsplit]
        exact hperm.symm.subset (List.mem_append_left _ hi)
      rcases List.mem_append.mp hmem with h | h
      · exact ⟨k0, by rw [← hd]; exact hk0, hlow i h⟩
      · exact ⟨i, by rw [← hd]; exact h, le_refl _⟩

theorem KillWeak_elitist {M : Float64Model} (S : Sorter) (cfg : Config M)
    (p1 p2 : population M) (Pl C : List individual)
    (hN : 1 ≤ cfg.amountOfIndividuals) (hp1 : p1.individuals = Pl ++ C)
    (hlen : (Pl.length : Int) = cfg.amountOfIndividuals)
    (hok : p1.KillWeak S cfg = .ok p2) :
    (fitnessValues Pl).sum ≤ (fitnessValues p2.individuals).sum
    ∧ ∀ i ∈ Pl, ∃ k ∈ p2.individuals, i.fitness ≤ k.fitness := by
  obtain ⟨_, _, hi, _, _⟩ := KillWeak_ok S cfg p1 p2 hok
  have hl2 := KillWeak_ok_length S cfg p1 p2 hok
  rw [hi] at hl2 ⊢
  exact sorted_drop_dominates (S.sort p1.individuals) Pl C _ (S.sorted p1.individuals)
    (by rw [← hp1]; exact S.perm p1.individuals) (by omega) (by omega)

theorem RefreshAvgFitness_ok_avg {M : Float64Model} (cfg : Config M) (p p' : population M)
    (h : p.RefreshAvgFitness cfg = .ok p') :
    p'.avgFitness = averageOf M p.individuals ∧ p'.individuals = p.individuals := by
  obtain ⟨acc, hacc, hp⟩ := RefreshAvgFitness_ok cfg p p' h
  rw [avgLoop_eq] at hacc
  split at hacc
  · simp at hacc
  · simp only [Outcome.ok.injEq] at hacc
    rw [hp]
    refine ⟨?_, rfl⟩
    simp only [averageOf, floatSum, List.foldl_map]
    rw [← hacc]

theorem start_avg {M : Float64Model} (cfg : Config M) (r : Rand) (s0 : LoopState M)
    (h : start cfg r = .ok s0) : s0.popul.avgFitness = averageOf M s0.popul.individuals := by
  simp only [start, bind, pure] at h
  obtain ⟨⟨p1, r1⟩, _, hrest1⟩ := Outcome.bind_eq_ok _ _ _ h
  obtain ⟨p3, h3, hrest3⟩ := Outcome.bind_eq_ok _ _ _ hrest1
  simp only [Outcome.ok.injEq] at hrest3
  obtain ⟨ha, hi⟩ := RefreshAvgFitness_ok_avg cfg _ p3 h3
  rw [← hrest3]
  simp only
  rw [ha, hi]

theorem cycle_avg {M : Float64Model} (S : Sorter) (cfg : Config M) (pfuel : Nat)
    (s s1 : LoopState M) (h : cycle S cfg pfuel s = .ok s1) :
    s1.popul.avgFitness = averageOf M s1.popul.individuals := by
  obtain ⟨p1, r1, p2, p3, _, _, h3, hs⟩ := cycle_inv S cfg pfuel s s1 h
  obtain ⟨ha, hi⟩ := RefreshAvgFitness_ok_avg cfg p2 p3 h3
  rw [hs]
  simp only [population.RefreshGeneration, population.RefreshFitness, ha, hi, averageOf,
    List.map_map, Function.comp_def, List.length_map]

theorem loopHead_inv {M : Float64Model} (S : Sorter) (cfg : Config M) (pfuel : Nat)
    (r : Rand) (s0 s : LoopState M) (k : Nat) (hN : 0 ≤ cfg.amountOfIndividuals)
    (hstart : start cfg r = .ok s0) (hk : afterCycles S cfg pfuel k s0 = .ok s) :
    (s.popul.individuals.length : Int) = cfg.amountOfIndividuals
    ∧ (∀ i ∈ s.popul.individuals, i.fitness = fitness i.entities)
    ∧ s.popul.avgFitness = averageOf M s.popul.individuals := by
  refine afterCycles_induction S cfg pfuel
    (fun s => (s.popul.individuals.length : Int) = cfg.amountOfIndividuals
      ∧ (∀ i ∈ s.popul.individuals, i.fitness = fitness i.entities)
      ∧ s.popul.avgFitness = averageOf M s.popul.individuals)
    ?_ k s0 s ?_ hk
  · intro s s1 _ h
    refine ⟨cycle_size S cfg pfuel s s1 h, ?_, cycle_avg S cfg pfuel s s1 h⟩
    intro i hi
    obtain ⟨_, _, _, _, _, hmap, _⟩ := cycle_individuals S cfg pfuel s s1 h
    rw [hmap] at hi
    obtain ⟨j, _, hj⟩ := List.mem_map.mp hi
    rw [← hj]
  · obtain ⟨hl, hf, _⟩ := start_inv cfg r s0 hstart
    exact ⟨by rw [hl]; omega, fun i hi => (hf i hi).2.2.2.1, start_avg cfg r s0 hstart⟩

theorem cycle_elitist {M : Float64Model} (S : Sorter) (cfg : Config M) (pfuel : Nat)
    (s s1 : LoopState M) (hN : 1 ≤ cfg.amountOfIndividuals)
    (hlen : (s.popul.individuals.length : Int) = cfg.amountOfIndividuals)
    (hcons : ∀ i ∈ s.popul.individuals, i.fitness = fitness i.entities)
    (h : cycle S cfg pfuel s = .ok s1) :
    (s.popul.individuals.map (fun i => fitness i.entities)).sum
      ≤ (s1.popul.individuals.map (fun i => fitness i.entities)).sum
    ∧ ∀ i ∈ s.popul.individuals, ∃ k ∈ s1.popul.individuals,
        fitness i.entities ≤ fitness k.entities := by
  obtain ⟨p1, r1, p2, hb, hkw, hmap, _⟩ := cycle_individuals S cfg pfuel s s1 h
  obtain ⟨_, _, children, hch, _, hcf, _⟩ := breedLoop_inv cfg pfuel _ s.popul p1 s.rng r1 hb
  obtain ⟨hsum, hmax⟩ := KillWeak_elitist S cfg p1 p2 s.popul.individuals children hN hch hlen hkw
  have hcons1 : ∀ i ∈ p1.individuals, i.fitness = fitness i.entities := by
    intro i hi
    rw [hch] at hi
    rcases List.mem_append.mp hi with h | h
    · exact hcons i h
    · exact hcf i h
  have hcons2 : ∀ i ∈ p2.individuals, i.fitness = fitness i.entities :=
    fun i hi => hcons1 i (KillWeak_ok_subset S cfg p1 p2 hkw i hi)
  have hfe : s1.popul.individuals.map (fun i => fitness i.entities)
      = fitnessValues p2.individuals := by
    rw [hmap, List.map_map, fitnessValues_of_consistent p2.individuals hcons2]
    rfl
  constructor
  · rw [hfe, ← fitnessValues_of_consistent s.popul.individuals hcons]
    exact hsum
  · intro i hi
    obtain ⟨k, hk, hle⟩ := hmax i hi
    refine ⟨⟨k.entities, k.amount, fitness k.entities, s.gen⟩, ?_, ?_⟩
    · rw [hmap]; exact List.mem_map.mpr ⟨k, hk, rfl⟩
    · rw [← hcons i hi, ← hcons2 k hk]; exact hle

/-- Claim C20.  With N = amountOfIndividuals >= 1.  (1) For a population P of
exactly N individuals and any children appended to it, a KillWeak that returns
leaves a population whose cached fitness values sum to at least the sum over P
and which holds, for every individual of P, an individual of at least its
fitness; when the cached fitness of P and of the children is the fitness of
the genome, the same holds of fitness(entities).  (2) From the start-up of main
on, every completed breeding cycle leaves the number of individuals unchanged,
the sum of fitness(entities) no smaller and, for every individual before the
cycle, an individual of at least its fitness after it; and the cached average
after the cycle is >= the cached average before it whenever float64 addition
is exact on the non-negative integers up to a bound B that the sum after the
cycle does not exceed and float64 division by a positive divisor is monotone
in the dividend. -/
theorem C20_elitist_replacement {M : Float64Model} (S : Sorter) (cfg : Config M)
    (hN : 1 ≤ cfg.amountOfIndividuals) :
    (∀ (P p' : population M) (children : List individual),
      (P.individuals.length : Int) = cfg.amountOfIndividuals →
      (children.foldl population.AppendIndividual P).KillWeak S cfg = .ok p' →
      (fitnessValues P.individuals).sum ≤ (fitnessValues p'.individuals).sum
      ∧ (∀ i ∈ P.individuals, ∃ k ∈ p'.individuals, i.fitness ≤ k.fitness)
      ∧ ((∀ i ∈ P.individuals, i.fitness = fitness i.entities) →
          (∀ c ∈ children, c.fitness = fitness c.entities) →
          (P.individuals.map (fun i => fitness i.entities)).sum
            ≤ (p'.individuals.map (fun i => fitness i.entities)).sum
          ∧ ∀ i ∈ P.individuals, ∃ k ∈ p'.individuals,
              fitness i.entities ≤ fitness k.entities))
    ∧ (∀ (pfuel : Nat) (r : Rand) (s0 s s1 : LoopState M) (k : Nat),
      start cfg r = .ok s0 → afterCycles S cfg pfuel k s0 = .ok s →
      cycle S cfg pfuel s = .ok s1 →
      s1.popul.individuals.length = s.popul.individuals.length
      ∧ (s.popul.individuals.map (fun i => fitness i.entities)).sum
          ≤ (s1.popul.individuals.map (fun i => fitness i.entities)).sum
      ∧ (∀ i ∈ s.popul.individuals, ∃ j ∈ s1.popul.individuals,
          fitness i.entities ≤ fitness j.entities)
      ∧ (∀ B : Int,
          (∀ a b : Int, 0 ≤ a → 0 ≤ b → a + b ≤ B →
            M.add (M.ofInt a) (M.ofInt b) = M.ofInt (a + b)) →
          (∀ a b n : Int, a ≤ b → 0 < n →
            M.le (M.div (M.ofInt a) (M.ofInt n)) (M.div (M.ofInt b) (M.ofInt n)) = true) →
          (s1.popul.individuals.map (fun i => fitness i.entities)).sum ≤ B →
          M.le s.popul.avgFitness s1.popul.avgFitness = true)) := by
  constructor
  · intro P p' children hlen hok
    obtain ⟨_, _, hind⟩ := foldl_AppendIndividual children P
    obtain ⟨hsum, hmax⟩ := KillWeak_elitist S cfg _ p' P.individuals children hN hind hlen hok
    refine ⟨hsum, hmax, fun hP hC => ?_⟩
    have hcons1 : ∀ i ∈ (children.foldl population.AppendIndividual P).individuals,
        i.fitness = fitness i.entities := by
      intro i hi
      rw [hind] at hi
      rcases List.mem_append.mp hi with h | h
      · exact hP i h
      · exact hC i h
    have hcons2 : ∀ i ∈ p'.individuals, i.fitness = fitness i.entities :=
      fun i hi => hcons1 i (KillWeak_ok_subset S cfg _ p' hok i hi)
    constructor
    · rw [← fitnessValues_of_consistent P.individuals hP,
        ← fitnessValues_of_consistent p'.individuals hcons2]
      exact hsum
    · intro i hi
      obtain ⟨k, hk, hle⟩ := hmax i hi
      exact ⟨k, hk, by rw [← hP i hi, ← hcons2 k hk]; exact hle⟩
  · intro pfuel r s0 s s1 k hstart hk hc
    obtain ⟨hlen, hcons, havg⟩ := loopHead_inv S cfg pfuel r s0 s k (by omega) hstart hk
    have hlen1 := cycle_size S cfg pfuel s s1 hc
    have havg1 := cycle_avg S cfg pfuel s s1 hc
    obtain ⟨hsum, hmax⟩ := cycle_elitist S cfg pfuel s s1 hN hlen hcons hc
    refine ⟨by omega, hsum, hmax, fun B hexact hmono hB => ?_⟩
    have hnn : ∀ l : List individual, ∀ v ∈ l.map (fun i => fitness i.entities), 0 ≤ v := by
      intro l v hv
      obtain ⟨i, _, hi⟩ := List.mem_map.mp hv
      rw [← hi]; exact fitness_nonneg _
    have e0 := foldl_add_exact M B hexact (s.popul.individuals.map (fun i => fitness i.entities))
      0 (le_refl 0) (hnn _) (by omega)
    have e1 := foldl_add_exact M B hexact (s1.popul.individuals.map (fun i => fitness i.entities))
      0 (le_refl 0) (hnn _) (by omega)
    rw [havg, havg1]
    simp only [averageOf, floatSum]
    rw [e0, e1, hlen, hlen1, zero_add, zero_add]
    exact hmono _ _ _ hsum (by omega)

/-- The statement of C20 on the first cycle of the sample run: the fitness values
1 and 1 of [1,0] and [0,1] become 1 and 2 of [0,1] and [1,1], and the cached
average goes from 2/2 to 3/2. -/
theorem C20_elitist_replacement_witness :
    start sampleConfig sampleRand = .ok sampleStart
    ∧ cycle insertionSorter sampleConfig 5 sampleStart = .ok sampleAfterOne
    ∧ sampleAfterOne.popul.individuals.length = sampleStart.popul.individuals.length
    ∧ (sampleStart.popul.individuals.map (fun i => fitness i.entities)).sum
        ≤ (sampleAfterOne.popul.individuals.map (fun i => fitness i.entities)).sum
    ∧ exactFloat.le sampleStart.popul.avgFitness sampleAfterOne.popul.avgFitness = true :=
  ⟨rfl, rfl,
    ((C20_elitist_replacement insertionSorter sampleConfig (by decide)).2 5 sampleRand
      sampleStart sampleStart sampleAfterOne 0 rfl rfl rfl).1,
    ((C20_elitist_replacement insertionSorter sampleConfig (by decide)).2 5 sampleRand
      sampleStart sampleStart sampleAfterOne 0 rfl rfl rfl).2.1,
    ((C20_elitist_replacement insertionSorter sampleConfig (by decide)).2 5 sampleRand
      sampleStart sampleStart sampleAfterOne 0 rfl rfl rfl).2.2.2 4
      (fun a b _ _ _ => by simp [exactFloat])
      (fun a b n hab hn => by
        simp only [exactFloat, mul_one, one_mul, decide_eq_true_eq]
        exact mul_le_mul_of_nonneg_right hab (le_of_lt hn))
      (by decide)⟩

end GoFlowEA
